import Mathlib

/-!
Verification of the table-processing toolkit `TableTools.py` from the
`lib_py_misc` repository.

The Python code is shallowly embedded: a table row is a list of column
values (index 0 holds the automatically inserted row number, indexes 1..
hold the column strings produced by splitting the input line), Python
dicts — which iterate in insertion order — are association lists, and
fallible code returns `Option`/`Except`.  Python string primitives that
the code relies on (`split`, `startswith`, `str()` of an integer,
string comparison) are embedded as structurally recursive functions over
`String.data`, so that every definition evaluates by kernel reduction.
-/

namespace TableTools

/-- Python runtime values, as far as the table tools inspect them. -/
inductive PyVal where
  | int : Int → PyVal
  | str : String → PyVal
  | list : List PyVal → PyVal
  | tup : List PyVal → PyVal
  | bool : Bool → PyVal
  | pyNone : PyVal

/-- Python truthiness, as used by `if x:` on the values above. -/
def truthy : PyVal → Bool
  | .int n => n ≠ 0
  | .str s => s ≠ ""
  | .list l => !l.isEmpty
  | .tup l => !l.isEmpty
  | .bool b => b
  | .pyNone => false

/-- A table row.  Index 0 is the row number inserted by
`TableFileIterator` (an `int` in Python, rendered here as a string cell,
which no theorem below inspects), indexes 1.. are the column values. -/
abbrev Row := List String

/-- Embedding of `TableTool.makeKey`: the tuple of the indicated columns
of the row.  Python `row[c]` on an out-of-range index raises; the
embedding totalises it with `""`, which no claim depends on. -/
def makeKey (row : Row) (colIndexes : List Nat) : List String :=
  colIndexes.map (fun c => row.getD c "")

/-- Decimal digits of a natural number, least significant first
(helper for `pyStr`). -/
def decDigits (n : Nat) : List Char :=
  if h : n < 10 then [Nat.digitChar n]
  else
    have : n / 10 < n := Nat.div_lt_self (by omega) (by omega)
    decDigits (n / 10) ++ [Nat.digitChar (n % 10)]

/-- Embedding of Python `str()` on a non-negative integer. -/
def pyStr (n : Nat) : String := String.mk (decDigits n)

/-!
`TableTool.generateOutputRow` (TableTools.py lines 422-455): evaluate the
compiled expressions in order against the input row(s); a false filter
aborts the row, a generator value extends the output row, a list or
tuple value extends it by all of its elements.  The compiled functions
are embedded as Lean functions `ι → PyVal` (the dynamic `eval` of the
expression strings is an oracle of the embedding); `ι` is the input row
for unary tools and a pair of rows for binary tools.
-/

/-- Values a generator contributes to the output row: a Python list or
tuple contributes its elements, anything else contributes itself. -/
def splice (x : PyVal) : List PyVal :=
  match x with
  | .list l => l
  | .tup l => l
  | v => [v]

/-- The evaluation loop of `TableTool.generateOutputRow`: `out` is the
output row grown so far, the boolean of each pair is the `isFilter`
flag. -/
def genLoop {ι : Type} (input : ι) :
    List ((ι → PyVal) × Bool) → List PyVal → Option (List PyVal)
  | [], out => some out
  | (f, isF) :: rest, out =>
      let x := f input
      if isF then
        if truthy x then genLoop input rest out else none
      else genLoop input rest (out ++ splice x)

/-- Embedding of `TableTool.generateOutputRow`: the output row starts
with the output-row counter `nOutputRows + 1`; `none` models the early
`return None` of a failing filter. -/
def generateOutputRow {ι : Type} (fns : List ((ι → PyVal) × Bool))
    (nOutputRows : Nat) (input : ι) : Option (List PyVal) :=
  genLoop input fns [PyVal.int (nOutputRows + 1)]

/-!
`TAggregate` (TableTools.py lines 845-975).  `processRow` keys the row by
the group-by columns and folds it into the accumulators of its partition
(creating them on first sight); `go` then emits one row per partition in
dict (= first-occurrence) order.  The accumulator list of a partition is
embedded generically as a state `σ` with a fold step — each concrete
accumulator class (`Counter`, `Concatenator`, `FirstValue`, ...) is an
instance of this shape, consuming `row[colIndex]` at each `nextRow`.
-/

/-- Embedding of `TAggregate.processRow`: ensure the row's group-by key
has a partition entry, then fold the row into that partition's state. -/
def processRow {σ : Type} (step : σ → Row → σ) (dflt : σ) (gb : List Nat)
    (ps : List (List String × σ)) (row : Row) : List (List String × σ) :=
  (if ps.any (fun p => p.1 = makeKey row gb) then ps
   else ps ++ [(makeKey row gb, dflt)]).map
    (fun p => if p.1 = makeKey row gb then (p.1, step p.2 row) else p)

/-- Embedding of `TAggregate.readInput`: fold every input row into the
partition map (an association list standing for the insertion-ordered
Python dict `self.partitions`). -/
def partitionsOf {σ : Type} (step : σ → Row → σ) (dflt : σ) (gb : List Nat)
    (rows : List Row) : List (List String × σ) :=
  rows.foldl (processRow step dflt gb) []

/-- Keys of a list in order of first occurrence — the key set of an
insertion-ordered dict populated left to right. -/
def firstKeys (ks : List (List String)) : List (List String) :=
  ks.foldl (fun acc k => if k ∈ acc then acc else acc ++ [k]) []

/-- Embedding of the output loop of `TAggregate.go`: for each partition
(in dict order) build the aggregate row `[rownum] + key + results`, pass
it through the compiled expressions, and keep the surviving rows (with
the leading output counter stripped, as `writeOutput(genrow[1:])`
does).  `resultsOf` renders the accumulator results (`str(apnd)` per
output specifier). -/
def goAgg {σ : Type} (step : σ → Row → σ) (dflt : σ)
    (resultsOf : σ → List String) (fns : List ((Row → PyVal) × Bool))
    (gb : List Nat) (rows : List Row) : List (List PyVal) :=
  (partitionsOf step dflt gb rows).enum.filterMap
    (fun p => (generateOutputRow fns p.1 (pyStr (p.1 + 1) :: (p.2.1 ++ resultsOf p.2.2))).map
      (fun r => r.drop 1))

/-!
`TUnion.go` (TableTools.py lines 2139-2153): emit every T1 row while
recording its key in the `keys` dict, then emit each T2 row whose key is
not among the recorded T1 keys.  (`TDiffIntUnion.makeKey` builds the
same column tuple as `TableTool.makeKey`, so the shared embedding
`makeKey` is used.)  Each emitted row is passed through
`self.output`, i.e. the compiled expressions; the embedding returns the
rows handed to `output`, which the default expression set prints
unchanged. -/
def tunionPhase1 (k1 : List Nat) (t1 : List Row) : List (List String) × List Row :=
  t1.foldl (fun st row => (st.1 ++ [makeKey row k1], st.2 ++ [row]))
    (([] : List (List String)), ([] : List Row))

def tunionGo (k1 k2 : List Nat) (t1 t2 : List Row) : List Row :=
  (tunionPhase1 k1 t1).2
  ++ t2.foldl
      (fun acc row =>
        if makeKey row k2 ∈ (tunionPhase1 k1 t1).1 then acc else acc ++ [row]) []

/-!
`TableTool.compileFunctions` / `makeFunction` (TableTools.py lines
282-311): each positional argument whose text begins with `?` is a
filter; if every argument is a filter (in particular if there are none),
a default generator — `IN[1:]` for one-input tools, `IN1[1:]+IN2[1:]`
for two-input tools — is appended as a non-filter.  An argument is
embedded as its text paired with the evaluation function produced by the
dynamic `eval` of `makeFunction` (an oracle of the embedding).
-/

/-- Test on the first character of a string (`arg[0] == '?'`; Python
raises on an empty argument, which the embedding renders as `false`). -/
def firstCharIs (c : Char) (s : String) : Bool :=
  match s.data with
  | [] => false
  | a :: _ => a = c

/-- Embedding of `TableTool.compileFunctions`. -/
def compileFunctions {ι : Type} (mkDefault : ι → PyVal)
    (args : List (String × (ι → PyVal))) : List ((ι → PyVal) × Bool) :=
  if args.all (fun a => firstCharIs '?' a.1) then
    args.map (fun a => (a.2, firstCharIs '?' a.1)) ++ [(mkDefault, false)]
  else
    args.map (fun a => (a.2, firstCharIs '?' a.1))

/-- Semantics of the default unary generator `IN[1:]`: the Python list
of all column values of the input row. -/
def defaultGenUnary : Row → PyVal :=
  fun r => PyVal.list ((r.drop 1).map PyVal.str)

/-- Semantics of the default binary generator `IN1[1:]+IN2[1:]`. -/
def defaultGenBinary : Row × Row → PyVal :=
  fun p => PyVal.list ((p.1.drop 1).map PyVal.str ++ (p.2.drop 1).map PyVal.str)

/-!
`TableTool.validate` / `errorExit` / `die` (TableTools.py lines 235-241
and 362-378): `validate` runs `openFiles`, `loadExprs`,
`processOptions` in order inside one `try`; any exception is caught by
`errorExit`, which writes a banner and the exception traceback to the
log and calls `die`, i.e. `sys.exit(-1)`.  Each phase is embedded as an
`Except` value whose error carries the traceback text.
-/

/-- Outcome of command-line validation: either set up normally, or
terminate the process with an exit status after writing log lines. -/
inductive ValidateOutcome where
  | ok : ValidateOutcome
  | exited : Int → List String → ValidateOutcome
deriving DecidableEq

/-- Log lines written by `TableTool.errorExit` (no extra message):
the banner, the caught-exception line, and the traceback printed by
`sys.excepthook`. -/
def errorExitLog (e : String) : List String :=
  ["\nAn error has occurred.", "\nThe following exception was caught:", e]

/-- Embedding of `TableTool.validate`: the first failing phase aborts
via `errorExit`, later phases never run. -/
def validate (openR loadR procR : Except String Unit) : ValidateOutcome :=
  match openR with
  | .error e => .exited (-1) (errorExitLog e)
  | .ok _ =>
      match loadR with
      | .error e => .exited (-1) (errorExitLog e)
      | .ok _ =>
          match procR with
          | .error e => .exited (-1) (errorExitLog e)
          | .ok _ => .ok

/-!
`TableFileIterator.nextRow` (TableTools.py lines 602-628): skip blank
lines (exactly `"\n"`) and lines starting with the comment string;
split a data line on the separator and prepend the row number; the
first data row fixes the expected column count; a later data line with
a different column count produces a log warning and is skipped.  The
embedding folds the whole input (one `nextRow` call per returned row)
over lines that are given without their trailing newline, so the blank
test becomes `= ""` and the strip of the final newline from the last
column is the identity.
-/

/-- Python `str.split(sep)` for a one-character separator, on the
character list of the string: splits at every occurrence, keeping empty
fields, and yields `[""]` on the empty string. -/
def splitSep (sep : Char) : List Char → List (List Char)
  | [] => [[]]
  | c :: rest =>
      match splitSep sep rest with
      | [] => [[c]]
      | h :: t => if c = sep then [] :: h :: t else (c :: h) :: t

/-- Python `line.split(sep)` producing strings. -/
def pySplit (sep : Char) (s : String) : List String :=
  (splitSep sep s.data).map String.mk

/-- State of a `TableFileIterator` consuming its input: the line and
row counters, the expected column count (`self.ncols`, `0` until the
first data row), the rows returned so far (row number paired with the
column values), and the line numbers of the warned-and-skipped
mismatching lines. -/
structure IterState where
  lineNum : Nat
  rowNum : Nat
  ncols : Nat
  rows : List (Nat × List String)
  warnings : List Nat
deriving DecidableEq

/-- One iteration of the `nextRow` loop body on one input line. -/
def nextRowStep (comment : String) (sep : Char) (st : IterState)
    (line : String) : IterState :=
  if line = "" ∨ comment.data.isPrefixOf line.data then
    { st with lineNum := st.lineNum + 1 }
  else if st.ncols = 0 then
    { lineNum := st.lineNum + 1
      rowNum := st.rowNum + 1
      ncols := (pySplit sep line).length
      rows := st.rows ++ [(st.rowNum + 1, pySplit sep line)]
      warnings := st.warnings }
  else if st.ncols ≠ (pySplit sep line).length then
    { st with
      lineNum := st.lineNum + 1
      rowNum := st.rowNum + 1
      warnings := st.warnings ++ [st.lineNum + 1] }
  else
    { st with
      lineNum := st.lineNum + 1
      rowNum := st.rowNum + 1
      rows := st.rows ++ [(st.rowNum + 1, pySplit sep line)] }

/-- Embedding of repeatedly calling `TableFileIterator.nextRow` until
the input is exhausted. -/
def readTable (comment : String) (sep : Char) (lines : List String) : IterState :=
  lines.foldl (nextRowStep comment sep) ⟨0, 0, 0, [], []⟩

/-- Whether `nextRow` treats a line as data: not blank and not starting
with the comment string. -/
def isDataLine (comment : String) (line : String) : Bool :=
  !(decide (line = "" ∨ comment.data.isPrefixOf line.data))

/-!
`TSort` (TableTools.py lines 2049-2101).  `processOptions` parses each
`-k COL[:r]` argument into a column and a reverse flag; `go` loads the
whole table, reverses the parsed key list and runs `doSort` once per
key; `doSort` executes `rows.sort(key=lambda row: row[c], reverse=True)`
— a stable sort on the key column, with the literal constant
`reverse=True`: the parsed `reverse` flag is received by `doSort` but
never used.
-/

/-- Python string comparison `s < t` (lexicographic on code points). -/
def charsLt : List Char → List Char → Bool
  | [], [] => false
  | [], _ :: _ => true
  | _ :: _, [] => false
  | a :: as, b :: bs => if a = b then charsLt as bs else decide (a.toNat < b.toNat)

def pyStrLt (s t : String) : Bool := charsLt s.data t.data

/-- Stable descending insertion: the element goes after every earlier
element whose key is not smaller (so equal keys keep input order). -/
def insertDesc {α : Type} (keyLt : α → α → Bool) (x : α) : List α → List α
  | [] => [x]
  | y :: ys => if keyLt y x then x :: y :: ys else y :: insertDesc keyLt x ys

/-- Stable sort in descending key order — the unique result of Python's
stable `rows.sort(key=..., reverse=True)`. -/
def sortDesc {α : Type} (keyLt : α → α → Bool) (rows : List α) : List α :=
  rows.foldl (fun acc x => insertDesc keyLt x acc) []

/-- Embedding of `TSort.doSort`: sorts by the string value of the key
column; `reverse=True` is hard-coded in the `sort` call, so the
`reverse` parameter is ignored. -/
def doSort (rows : List Row) (column : Nat) (reverse : Bool) : List Row :=
  sortDesc (fun r1 r2 => pyStrLt (r1.getD column "") (r2.getD column "")) rows

/-- Python `skey.endswith(suf)`. -/
def strEndsWith (suf s : String) : Bool :=
  suf.data.reverse.isPrefixOf s.data.reverse

/-- Python `skey[:-n]`. -/
def strDropRight (n : Nat) (s : String) : String :=
  String.mk (s.data.take (s.data.length - n))

/-- Python `int(skey)` on a plain decimal string (`none` models the
`ValueError` of a malformed argument). -/
def parseNat (s : String) : Option Nat :=
  if s.data ≠ [] ∧ s.data.all (fun c => c.isDigit) then
    some (s.data.foldl (fun n c => n * 10 + (c.toNat - 48)) 0)
  else none

/-- Embedding of the `-k COL[:r]` parsing in `TSort.processOptions`. -/
def parseSortKey (skey : String) : Option (Nat × Bool) :=
  if strEndsWith ":r" skey then
    (parseNat (strDropRight 2 skey)).map (fun c => (c, true))
  else if strEndsWith "r" skey then
    (parseNat (strDropRight 1 skey)).map (fun c => (c, true))
  else
    (parseNat skey).map (fun c => (c, false))

/-- Embedding of `TSort.go`: reverse the key list, then sort once per
key (multi-level sort by repeated stable sorts). -/
def tsortGo (sortKeys : List (Nat × Bool)) (rows : List Row) : List Row :=
  sortKeys.reverse.foldl (fun rs k => doSort rs k.1 k.2) rows

/-!
`TXpand` (TableTools.py lines 2181-2297).  `expandValue` strips the
prefix and suffix from a list-valued cell (raising `SyntaxError` on a
mismatch), splits the remainder on the separator, and converts the items
with `conv` — whose default is `None`: in Python 3, `list(map(None,
items))` raises `TypeError` as soon as the non-empty iterator is
consumed.  `expandRow` expands every configured column of a row and
builds one output row per index up to the longest expansion, padding
exhausted columns with `''`.  The separator is matched literally (the
PSS grammar of the tool produces one-character separators).
-/

/-- Python exceptions raised inside `TXpand`: `affixMismatch` models
the `RuntimeError("SyntaxError")` of a bad prefix or suffix,
`convNotCallable` the Python 3 `TypeError` from `map(None, ...)`. -/
inductive PyErr where
  | affixMismatch : PyErr
  | convNotCallable : PyErr
deriving DecidableEq

/-- Clamped index of a Python slice bound. -/
def sliceIdx (len : Nat) (i : Int) : Nat :=
  if i < 0 then (Int.ofNat len + i).toNat else min i.toNat len

/-- Python `s[a:b]` on strings. -/
def pySlice (s : String) (a b : Int) : String :=
  String.mk ((s.data.take (sliceIdx s.data.length b)).drop (sliceIdx s.data.length a))

/-- Embedding of `TXpand.expandValue` (parameterised by `conv`; the
caller `expandRow` passes the default `none`, i.e. Python `None`). -/
def expandValue (value : PyVal) (pfx : String) (sep : Char) (sfx : String)
    (conv : Option (String → String)) : Except PyErr (Option (List String)) :=
  match value with
  | .str s =>
      if pySlice s 0 (Int.ofNat pfx.data.length) ≠ pfx then .error .affixMismatch
      else if pySlice s (Int.ofNat s.data.length - Int.ofNat sfx.data.length)
          (Int.ofNat s.data.length) ≠ sfx then .error .affixMismatch
      else
        match conv with
        | none =>
            if (pySplit sep (pySlice s (Int.ofNat pfx.data.length)
                (Int.ofNat s.data.length - Int.ofNat sfx.data.length))).isEmpty
            then .ok (some [])
            else .error .convNotCallable
        | some f =>
            .ok (some ((pySplit sep (pySlice s (Int.ofNat pfx.data.length)
                (Int.ofNat s.data.length - Int.ofNat sfx.data.length))).map f))
  | _ => .ok none

/-- First loop of `TXpand.expandRow`: expand each configured column,
collecting `(col, expanded items)` and the row count `nxr` (the running
`max`, starting at 1). -/
def expandCols (conv : Option (String → String)) (row : List PyVal) :
    List (Nat × String × Char × String) → Except PyErr (List (Nat × List String) × Nat)
  | [] => .ok ([], 1)
  | (col, pfx, sep, sfx) :: rest =>
      match expandValue (row.getD col .pyNone) pfx sep sfx conv with
      | .error e => .error e
      | .ok none => expandCols conv row rest
      | .ok (some xvs) =>
          match expandCols conv row rest with
          | .error e => .error e
          | .ok (xvals, nxr) => .ok ((col, xvs) :: xvals, max nxr xvs.length)

/-- Second loop of `TXpand.expandRow`: the i-th generated row copies the
input row and overwrites each expanded column with its i-th item, or
with `''` when that column's list is exhausted. -/
def buildXRows (row : List PyVal) (xvals : List (Nat × List String)) (nxr : Nat) :
    List (List PyVal) :=
  (List.range nxr).map (fun i =>
    xvals.foldl (fun xrow cv => xrow.set cv.1 (PyVal.str (cv.2.getD i ""))) row)

/-- Embedding of `TXpand.expandRow` (the source calls `expandValue`
without `conv`, so `conv = none`). -/
def expandRow (xpColumns : List (Nat × String × Char × String)) (row : List PyVal) :
    Except PyErr (List (List PyVal)) :=
  match expandCols none row xpColumns with
  | .error e => .error e
  | .ok (xvals, nxr) => .ok (buildXRows row xvals nxr)

/-- The same row expansion with the `conv = None` slip repaired (Python
2's `map(None, xs)` was the identity): used to state the behaviour the
surrounding code and documentation intend. -/
def expandRowFixed (xpColumns : List (Nat × String × Char × String)) (row : List PyVal) :
    Except PyErr (List (List PyVal)) :=
  match expandCols (some (fun s => s)) row xpColumns with
  | .error e => .error e
  | .ok (xvals, nxr) => .ok (buildXRows row xvals nxr)

/-!
`TJoin` (TableTools.py lines 1803-1950).  `pickInnerOuter` swaps the two
tables (and their join columns and outer flags) when T1 is a named file
smaller than T2 or T2 is unnamed, so that `self.t2` — the table
`loadInner` loads into the in-memory dict — is the smaller named file;
`fileSize` returns -1 for stdin or an unnamed descriptor.  `loadInner`
keys the inner rows by their join columns in an insertion-ordered dict
of row lists (the same ensure-then-append shape as `TAggregate`'s
partition dict, so the embedding reuses `partitionsOf` with the
list-append step).  `scanOuter` (non-self join, outer flags off) scans
the outer table and emits one pair per key match; `processPair` orders
each pair so that the T1 row is bound to IN1 and the T2 row to IN2 even
when the inputs were swapped.
-/

/-- Embedding of the swap decision in `TJoin.pickInnerOuter`:
`t1sz != -1 and (t2sz == -1 or t1sz < t2sz)`. -/
def pickSwap (t1Size t2Size : Int) : Bool :=
  decide (t1Size ≠ -1) && (decide (t2Size = -1) || decide (t1Size < t2Size))

/-- Embedding of `TJoin.loadInner` on the (post-swap) inner table. -/
def loadInner (j2 : List Nat) (t2 : List Row) : List (List String × List Row) :=
  partitionsOf (fun l r => l ++ [r]) [] j2 t2

/-- Lookup `key in self.inner` / `self.inner[key]`. -/
def lookupInner (inner : List (List String × List Row)) (k : List String) :
    Option (List Row) :=
  (inner.find? (fun p => p.1 = k)).map (fun p => p.2)

/-- Embedding of the non-self, non-outer loop of `TJoin.scanOuter`:
pairs are emitted as (outer row, inner row). -/
def scanOuterPairs (inner : List (List String × List Row)) (j1 : List Nat)
    (t1 : List Row) : List (Row × Row) :=
  t1.flatMap (fun outerrow =>
    match lookupInner inner (makeKey outerrow j1) with
    | some rowlist => rowlist.map (fun innerrow => (outerrow, innerrow))
    | none => [])

/-- The joined pairs in IN1/IN2 binding order (`processPair` restores
the original T1/T2 roles when the inputs were swapped). -/
def tjoinPairs (swapped : Bool) (j1 j2 : List Nat) (t1 t2 : List Row) :
    List (Row × Row) :=
  if swapped then
    (scanOuterPairs (loadInner j1 t1) j2 t2).map (fun p => (p.2, p.1))
  else
    scanOuterPairs (loadInner j2 t2) j1 t1

/-!
`TBucketize` / `BipartiteGraph` / `CCA` (TableTools.py lines 1220-1441).
`buildGraph` reads the rows and builds a bipartite association graph
whose nodes are the non-null first-ID keys (prepended `"A"`) and
second-ID keys (prepended `"B"`); `CCA.go` walks the nodes in sorted
order, runs a depth-first `reach` over each unvisited component counting
its distinct `A` and `B` members, and stamps every component member with
`(cid, "na-nb")`; `getBid` coarsens the bucket string to one of the six
labels in `BUCKETS`.  The unbounded recursion of `reach` is embedded
with an explicit fuel, instantiated with more fuel than there are nodes.
-/

/-- The `"A"`/`"B"` tag prepended by `TBucketize.makeKey`. -/
inductive Side where
  | A : Side
  | B : Side
deriving DecidableEq

/-- A graph node: the tag and the tuple of (non-null) key column
values. -/
abbrev Node := Side × List String

/-- The insertion-ordered dict `BipartiteGraph.nodes`. -/
abbrev BGraph := List (Node × List Node)

/-- Neighbour list of a node (`self.graph.nodes[n]`; absent nodes give
`[]`, and the DFS only ever looks up present nodes). -/
def adj (g : BGraph) (n : Node) : List Node :=
  ((g.find? (fun p => p.1 = n)).map (fun p => p.2)).getD []

/-- The get-or-create of `BipartiteGraph.__getneighbors__`. -/
def ensureKey (g : BGraph) (n : Node) : BGraph :=
  if (g.find? (fun p => p.1 = n)).isSome then g else g ++ [(n, [])]

/-- The conditional `ns.append` of `BipartiteGraph.add`. -/
def addNbr (g : BGraph) (n m : Node) : BGraph :=
  g.map (fun p => if p.1 = n then (p.1, if m ∈ p.2 then p.2 else p.2 ++ [m]) else p)

/-- One of the two symmetric halves of `BipartiteGraph.add`. -/
def bgAddHalf (g : BGraph) (x y : Option Node) : BGraph :=
  match x with
  | none => g
  | some a =>
      match y with
      | none => ensureKey g a
      | some b => addNbr (ensureKey g a) a b

/-- Embedding of `BipartiteGraph.add`. -/
def bgAdd (g : BGraph) (a b : Option Node) : BGraph :=
  bgAddHalf (bgAddHalf g a b) b a

/-- The key-value loop of `TBucketize.makeKey`: `none` as soon as one
key column holds the null string. -/
def keyVals (nullStr : String) (row : Row) : List Nat → Option (List String)
  | [] => some []
  | c :: cs =>
      if row.getD c "" = nullStr then none
      else (keyVals nullStr row cs).map (fun vs => row.getD c "" :: vs)

/-- Embedding of `TBucketize.makeKey`. -/
def tbMakeKey (nullStr : String) (row : Row) (cols : List Nat) (side : Side) :
    Option Node :=
  (keyVals nullStr row cols).map (fun vs => (side, vs))

/-- Embedding of `TBucketize.buildGraph` (the graph part; the tagged row
list `self.rows` only routes output rows and is not needed for the
bucket computation). -/
def buildGraph (nullStr : String) (k1 k2 : List Nat) (rows : List Row) : BGraph :=
  rows.foldl
    (fun g row => bgAdd g (tbMakeKey nullStr row k1 .A) (tbMakeKey nullStr row k2 .B)) []

/-- State of `CCA.reach`: the key set of `self.visited`, the keys of
`self.cc` in visit order, and the two member counters. -/
structure DfsState where
  visitedK : List Node
  cc : List Node
  na : Nat
  nb : Nat

mutual
/-- Embedding of `CCA.reach` with explicit fuel: mark the node, count it
(`n[1] is not None` holds whenever the key columns are non-empty, which
theorem hypotheses below guarantee), then recurse into the unvisited
neighbours. -/
def reach (g : BGraph) : Nat → Node → DfsState → DfsState
  | 0, _, st => st
  | fuel + 1, n, st =>
      reachList g fuel (adj g n)
        { visitedK := st.visitedK ++ [n]
          cc := st.cc ++ [n]
          na := st.na + (if n.1 = Side.A ∧ n.2 ≠ [] then 1 else 0)
          nb := st.nb + (if n.1 = Side.B ∧ n.2 ≠ [] then 1 else 0) }
termination_by fuel _ _ => (fuel, 0)

/-- The neighbour loop of `CCA.reach`. -/
def reachList (g : BGraph) : Nat → List Node → DfsState → DfsState
  | _, [], st => st
  | fuel, n2 :: rest, st =>
      reachList g fuel rest (if n2 ∈ st.visitedK then st else reach g fuel n2 st)
termination_by fuel l _ => (fuel, l.length + 1)
end

/-- Embedding of `CCA.getBucket`: the string `str(na) + "-" + str(nb)`. -/
def getBucket (na nb : Nat) : String :=
  String.mk (decDigits na ++ '-' :: decDigits nb)

/-- Embedding of `TBucketize.getBid`: split the bucket string on `"-"`
and coarsen each count that is neither `"0"` nor `"1"`. -/
def getBid (bucket : String) : String :=
  let counts := splitSep '-' bucket.data
  let c0 := counts.getD 0 []
  let c1 := counts.getD 1 []
  let c0' := if c0 = ['0'] ∨ c0 = ['1'] then c0 else ['n']
  let c1' := if c1 = ['0'] ∨ c1 = ['1'] then c1
             else if c0' = ['n'] then ['m'] else ['n']
  String.mk (c0' ++ '-' :: c1')

/-- The six bucket ids (TableTools.py `BUCKETS`). -/
def BUCKETS : List String := ["0-1", "1-0", "1-1", "n-1", "1-n", "n-m"]

/-- Specification-side rendering of the claim's wording for the bucket
id: each count greater than one is replaced by `"n"` (or `"m"` on the
right when the left is already `"n"`).  Stated separately from the
source-derived `getBid` so the two can be compared. -/
def bidSpec (na nb : Nat) : String :=
  String.mk ((if na ≤ 1 then decDigits na else ['n'])
    ++ '-' :: (if nb ≤ 1 then decDigits nb else if na ≤ 1 then ['n'] else ['m']))

/-- Python comparison of the value tuples inside a node. -/
def listStrLt : List String → List String → Bool
  | [], [] => false
  | [], _ :: _ => true
  | _ :: _, [] => false
  | a :: as, b :: bs => if a = b then listStrLt as bs else pyStrLt a b

/-- Python comparison of node tuples, `("A", ...) < ("B", ...)`. -/
def nodeLt (m n : Node) : Bool :=
  if m.1 = n.1 then listStrLt m.2 n.2
  else (match m.1, n.1 with
        | Side.A, Side.B => true
        | _, _ => false)

/-- Stable ascending insertion (the element goes before the first
strictly greater one), modelling Python's stable `sorted`. -/
def insertAsc {α : Type} (lt : α → α → Bool) (x : α) : List α → List α
  | [] => [x]
  | y :: ys => if lt x y then x :: y :: ys else y :: insertAsc lt x ys

/-- Stable ascending sort, modelling `sorted(self.graph.nodes.keys())`. -/
def sortAsc {α : Type} (lt : α → α → Bool) (l : List α) : List α :=
  l.foldl (fun acc x => insertAsc lt x acc) []

/-- The component loop of `CCA.go`: for each still-unvisited node run
one DFS and stamp every member of the resulting component with the
fresh component id and the component's bucket string (the source writes
the stamps back into `self.visited`; the embedding accumulates them in
an association list). -/
def ccaGoLoop (g : BGraph) (fuel : Nat) :
    List Node → List (Node × Nat × String) × Nat → List (Node × Nat × String) × Nat
  | [], st => st
  | n :: rest, (asg, cid) =>
      if n ∈ asg.map Prod.fst then ccaGoLoop g fuel rest (asg, cid)
      else
        ccaGoLoop g fuel rest
          (asg ++ (reach g fuel n ⟨asg.map Prod.fst, [], 0, 0⟩).cc.map
              (fun cn => (cn, (cid + 1,
                getBucket (reach g fuel n ⟨asg.map Prod.fst, [], 0, 0⟩).na
                  (reach g fuel n ⟨asg.map Prod.fst, [], 0, 0⟩).nb))),
            cid + 1)

/-- Embedding of `CCA.go` (fuel: one more than the node count, which the
correctness proof shows is never exhausted). -/
def ccaGo (g : BGraph) : List (Node × Nat × String) :=
  (ccaGoLoop g (g.length + 1) (sortAsc nodeLt (g.map Prod.fst)) ([], 0)).1

/-- Lookup of `self.visited[n]` after `go` (i.e. `CCA.getCid`). -/
def lookupAssign (asg : List (Node × Nat × String)) (n : Node) : Option (Nat × String) :=
  (asg.find? (fun p => p.1 = n)).map (fun p => p.2)

/-- Reachability from `a` through edges of `g` avoiding the node set
`V` (the start node is not constrained): the semantic counterpart of
what one `CCA.reach` call visits. -/
inductive ReachAvoid (g : BGraph) (V : List Node) : Node → Node → Prop where
  | refl (n : Node) : ReachAvoid g V n n
  | tail {a b c : Node} :
      ReachAvoid g V a b → c ∈ adj g b → c ∉ V → ReachAvoid g V a c

/-- Common shape of the state change performed by one `reach` /
`reachList` call: the visited set and the component grow by the same
fresh, duplicate-free node list, and the counters grow by the tagged
member counts of that list. -/
def DfsPost (st st' : DfsState) (Δ : List Node) : Prop :=
  st'.visitedK = st.visitedK ++ Δ
  ∧ st'.cc = st.cc ++ Δ
  ∧ Δ.Nodup
  ∧ (∀ x ∈ Δ, x ∉ st.visitedK)
  ∧ st'.na = st.na + (Δ.filter (fun x => decide (x.1 = Side.A) && decide (x.2 ≠ []))).length
  ∧ st'.nb = st.nb + (Δ.filter (fun x => decide (x.1 = Side.B) && decide (x.2 ≠ []))).length

/-- Well-formedness of the association graph built by `buildGraph`:
duplicate-free key list, neighbours are keys, symmetric and bipartite
adjacency, and every node is a tag with a key tuple of the matching
arity. -/
def WF (g : BGraph) (n1 n2 : Nat) : Prop :=
  (g.map Prod.fst).Nodup
  ∧ (∀ x y : Node, y ∈ adj g x → y ∈ g.map Prod.fst)
  ∧ (∀ x y : Node, y ∈ adj g x → x ∈ adj g y)
  ∧ (∀ x y : Node, y ∈ adj g x → y.1 ≠ x.1)
  ∧ (∀ nd ∈ g.map Prod.fst,
      nd.1 = Side.A ∧ nd.2.length = n1 ∨ nd.1 = Side.B ∧ nd.2.length = n2)

/-! ## Theorems -/

lemma mem_firstKeys_foldl (ks : List (List String)) (acc : List (List String))
    (a : List String) :
    a ∈ ks.foldl (fun acc k => if k ∈ acc then acc else acc ++ [k]) acc ↔
      a ∈ acc ∨ a ∈ ks := by
  induction ks generalizing acc with
  | nil => simp
  | cons k ks ih =>
      simp only [List.foldl_cons]
      by_cases hk : k ∈ acc
      · simp only [if_pos hk, ih, List.mem_cons]
        constructor
        · rintro (h | h)
          · exact Or.inl h
          · exact Or.inr (Or.inr h)
        · rintro (h | h | h)
          · exact Or.inl h
          · exact Or.inl (h ▸ hk)
          · exact Or.inr h
      · simp only [if_neg hk, ih, List.mem_append, List.mem_singleton, List.mem_cons]
        tauto

lemma mem_firstKeys (ks : List (List String)) (a : List String) :
    a ∈ firstKeys ks ↔ a ∈ ks := by
  unfold firstKeys
  rw [mem_firstKeys_foldl]
  simp

lemma firstKeys_append_mem (ks : List (List String)) (k : List String)
    (h : k ∈ ks) : firstKeys (ks ++ [k]) = firstKeys ks := by
  unfold firstKeys
  rw [List.foldl_append]
  simp only [List.foldl_cons, List.foldl_nil]
  rw [if_pos]
  rw [mem_firstKeys_foldl]
  exact Or.inr h

lemma firstKeys_append_not_mem (ks : List (List String)) (k : List String)
    (h : k ∉ ks) : firstKeys (ks ++ [k]) = firstKeys ks ++ [k] := by
  unfold firstKeys
  rw [List.foldl_append]
  simp only [List.foldl_cons, List.foldl_nil]
  rw [if_neg]
  rw [mem_firstKeys_foldl]
  rintro (hc | hc)
  · simp at hc
  · exact h hc

lemma any_fst_iff {σ : Type} (ps : List (List String × σ)) (k : List String) :
    (ps.any (fun p => p.1 = k)) = true ↔ k ∈ ps.map Prod.fst := by
  simp only [List.any_eq_true, List.mem_map, decide_eq_true_eq]

lemma map_fst_update {σ : Type} (ps : List (List String × σ)) (k : List String)
    (step : σ → Row → σ) (r : Row) :
    (ps.map (fun p => if p.1 = k then (p.1, step p.2 r) else p)).map Prod.fst
      = ps.map Prod.fst := by
  rw [List.map_map]
  apply List.map_congr_left
  intro p _
  by_cases hpe : p.1 = k <;> simp [hpe]

/-- Key-list effect of one `TAggregate.processRow` step: a fresh key is
appended, an existing key leaves the key list unchanged. -/
lemma processRow_map_fst {σ : Type} (step : σ → Row → σ) (dflt : σ)
    (gb : List Nat) (ps : List (List String × σ)) (r : Row) :
    (processRow step dflt gb ps r).map Prod.fst =
      if makeKey r gb ∈ ps.map Prod.fst then ps.map Prod.fst
      else ps.map Prod.fst ++ [makeKey r gb] := by
  unfold processRow
  by_cases hk : makeKey r gb ∈ ps.map Prod.fst
  · rw [if_pos hk, if_pos ((any_fst_iff ps _).mpr hk), map_fst_update]
  · rw [if_neg hk, if_neg (by rw [any_fst_iff]; exact hk), map_fst_update,
      List.map_append, List.map_singleton]

/-- Value effect of one `TAggregate.processRow` step, entrywise. -/
lemma processRow_values {σ : Type} (step : σ → Row → σ) (dflt : σ)
    (gb : List Nat) (ps : List (List String × σ)) (r : Row) (done : List Row)
    (h2 : ∀ p ∈ ps, p.2 = ((done.filter (fun r' => makeKey r' gb = p.1)).foldl step dflt))
    (habsent : makeKey r gb ∉ ps.map Prod.fst →
      done.filter (fun r' => makeKey r' gb = makeKey r gb) = []) :
    ∀ p ∈ processRow step dflt gb ps r,
      p.2 = (((done ++ [r]).filter (fun r' => makeKey r' gb = p.1)).foldl step dflt) := by
  intro p hp
  unfold processRow at hp
  obtain ⟨q, hq, hqe⟩ := List.mem_map.mp hp
  have hqcases : q ∈ ps ∨ (makeKey r gb ∉ ps.map Prod.fst ∧ q = (makeKey r gb, dflt)) := by
    by_cases hk : (ps.any (fun p => p.1 = makeKey r gb)) = true
    · rw [if_pos hk] at hq
      exact Or.inl hq
    · rw [if_neg hk] at hq
      rcases List.mem_append.mp hq with h | h
      · exact Or.inl h
      · refine Or.inr ⟨fun hc => hk ((any_fst_iff ps _).mpr hc), List.mem_singleton.mp h⟩
  rcases hqcases with hq' | ⟨hfresh, hq'⟩
  · by_cases hqk : q.1 = makeKey r gb
    · rw [if_pos hqk] at hqe
      subst hqe
      dsimp only
      have hval := h2 q hq'
      rw [List.filter_append]
      simp only [List.filter_cons, List.filter_nil]
      rw [decide_eq_true (show makeKey r gb = q.1 from hqk.symm)]
      rw [List.foldl_append, ← hval]
      simp
    · rw [if_neg hqk] at hqe
      subst hqe
      rw [List.filter_append]
      simp only [List.filter_cons, List.filter_nil]
      rw [decide_eq_false (show ¬ makeKey r gb = q.1 from fun h => hqk h.symm)]
      simpa using h2 q hq'
  · subst hq'
    dsimp only at hqe
    rw [if_pos rfl] at hqe
    subst hqe
    dsimp only
    rw [List.filter_append, habsent hfresh, List.nil_append]
    simp

/-- Invariant of the `TAggregate` input loop: the partition map lists the
distinct keys of the consumed rows in first-occurrence order, and each
partition's state is the fold of exactly the consumed rows having that
key. -/
lemma partitions_loop_spec {σ : Type} (step : σ → Row → σ) (dflt : σ)
    (gb : List Nat) (rows : List Row) :
    ∀ (done : List Row) (ps : List (List String × σ)),
      ps.map Prod.fst = firstKeys (done.map (fun r => makeKey r gb)) →
      (∀ p ∈ ps, p.2 = ((done.filter (fun r' => makeKey r' gb = p.1)).foldl step dflt)) →
      ((rows.foldl (processRow step dflt gb) ps).map Prod.fst
          = firstKeys ((done ++ rows).map (fun r => makeKey r gb)))
      ∧ (∀ p ∈ rows.foldl (processRow step dflt gb) ps,
          p.2 = (((done ++ rows).filter (fun r' => makeKey r' gb = p.1)).foldl step dflt)) := by
  induction rows with
  | nil =>
      intro done ps h1 h2
      rw [List.foldl_nil, List.append_nil]
      exact ⟨h1, h2⟩
  | cons r rows ih =>
      intro done ps h1 h2
      simp only [List.foldl_cons]
      have hmemiff : makeKey r gb ∈ ps.map Prod.fst ↔
          makeKey r gb ∈ done.map (fun r' => makeKey r' gb) := by
        rw [h1, mem_firstKeys]
      have h1' : (processRow step dflt gb ps r).map Prod.fst
          = firstKeys ((done ++ [r]).map (fun r' => makeKey r' gb)) := by
        rw [processRow_map_fst, List.map_append, List.map_singleton]
        by_cases hk : makeKey r gb ∈ ps.map Prod.fst
        · rw [if_pos hk, h1, firstKeys_append_mem]
          exact hmemiff.mp hk
        · rw [if_neg hk, h1, firstKeys_append_not_mem]
          exact fun h => hk (hmemiff.mpr h)
      have h2' : ∀ p ∈ processRow step dflt gb ps r,
          p.2 = (((done ++ [r]).filter (fun r' => makeKey r' gb = p.1)).foldl step dflt) := by
        apply processRow_values step dflt gb ps r done h2
        intro hfresh
        rw [List.filter_eq_nil_iff]
        intro a ha hdec
        exact (fun h => hfresh (hmemiff.mpr h))
          (List.mem_map.mpr ⟨a, ha, (of_decide_eq_true hdec)⟩)
      have hmain := ih (done ++ [r]) (processRow step dflt gb ps r) h1' h2'
      rw [List.append_assoc, List.singleton_append] at hmain
      exact hmain

lemma genLoop_all_pass {ι : Type} (input : ι) :
    ∀ (fns : List ((ι → PyVal) × Bool)) (out : List PyVal),
      (∀ fb ∈ fns, fb.2 = true → truthy (fb.1 input) = true) →
      genLoop input fns out
        = some (out ++ (fns.filter (fun fb => !fb.2)).flatMap
            (fun fb => splice (fb.1 input))) := by
  intro fns
  induction fns with
  | nil => intro out _; simp [genLoop]
  | cons fb rest ih =>
      intro out h
      obtain ⟨f, isF⟩ := fb
      by_cases hf : isF
      · subst hf
        have ht : truthy (f input) = true := h (f, true) (List.mem_cons_self _ _) rfl
        simp only [genLoop, ht, if_true]
        rw [ih out (fun fb hfb => h fb (List.mem_cons_of_mem _ hfb))]
        simp
      · have hf' : isF = false := Bool.eq_false_iff.mpr hf
        subst hf'
        simp only [genLoop, if_false, Bool.false_eq_true]
        rw [ih (out ++ splice (f input)) (fun fb hfb => h fb (List.mem_cons_of_mem _ hfb))]
        simp [List.filter_cons]

lemma genLoop_filter_false {ι : Type} (input : ι) :
    ∀ (pre : List ((ι → PyVal) × Bool)) (f : ι → PyVal)
      (post : List ((ι → PyVal) × Bool)) (out : List PyVal),
      (∀ fb ∈ pre, fb.2 = true → truthy (fb.1 input) = true) →
      truthy (f input) = false →
      genLoop input (pre ++ (f, true) :: post) out = none := by
  intro pre
  induction pre with
  | nil =>
      intro f post out _ hf
      simp [genLoop, hf]
  | cons fb rest ih =>
      intro f post out h hf
      obtain ⟨g, isF⟩ := fb
      by_cases hg : isF
      · subst hg
        have ht : truthy (g input) = true := h (g, true) (List.mem_cons_self _ _) rfl
        simp only [List.cons_append, genLoop, ht, if_true]
        exact ih f post out (fun fb hfb => h fb (List.mem_cons_of_mem _ hfb)) hf
      · have hg' : isF = false := Bool.eq_false_iff.mpr hg
        subst hg'
        simp only [List.cons_append, genLoop, if_false, Bool.false_eq_true]
        exact ih f post _ (fun fb hfb => h fb (List.mem_cons_of_mem _ hfb)) hf

lemma filterMap_length_of_isSome {α β : Type} (F : α → Option β) :
    ∀ (l : List α), (∀ x ∈ l, (F x).isSome) → (l.filterMap F).length = l.length := by
  intro l
  induction l with
  | nil => intro _; rfl
  | cons x xs ih =>
      intro h
      have hx := h x (List.mem_cons_self _ _)
      obtain ⟨y, hy⟩ := Option.isSome_iff_exists.mp hx
      rw [List.filterMap_cons, hy, List.length_cons, ih (fun a ha => h a (List.mem_cons_of_mem _ ha))]
      rfl

/-- C1: for every input table and group-by column list, `TAggregate`
keeps one partition per distinct group-by key (in order of first
occurrence), the accumulator state of each partition is the fold of
exactly the input rows whose group-by key equals that partition's key —
so rows of other partitions never touch it — and, with expression
functions containing no filters (the default configuration appends only
the generator `IN[1:]`), `go` emits exactly one output row per
partition, i.e. per distinct key combination occurring in the input. -/
theorem taggregate_partition_correct {σ : Type} (step : σ → Row → σ) (dflt : σ)
    (resultsOf : σ → List String) (fns : List ((Row → PyVal) × Bool))
    (gb : List Nat) (rows : List Row)
    (hnf : ∀ fb ∈ fns, fb.2 = false) :
    ((partitionsOf step dflt gb rows).map Prod.fst
        = firstKeys (rows.map (fun r => makeKey r gb)))
    ∧ (∀ p ∈ partitionsOf step dflt gb rows,
        p.2 = ((rows.filter (fun r' => makeKey r' gb = p.1)).foldl step dflt))
    ∧ (goAgg step dflt resultsOf fns gb rows).length
        = (firstKeys (rows.map (fun r => makeKey r gb))).length := by
  have hbase := partitions_loop_spec step dflt gb rows [] []
    (by rfl) (by intro p hp; cases hp)
  rw [List.nil_append] at hbase
  refine ⟨hbase.1, hbase.2, ?_⟩
  unfold goAgg
  rw [filterMap_length_of_isSome]
  · rw [List.enum_length, ← hbase.1, List.length_map]
    rfl
  · intro x _
    unfold generateOutputRow
    rw [genLoop_all_pass _ _ _ (fun fb hfb h => absurd (hnf fb hfb) (by simp [h]))]
    rfl

/-- Witness for C1 at a concrete table: three rows grouped by column 1,
with a list-concatenation accumulator over column 2 and a filterless
expression list. -/
theorem taggregate_partition_correct_witness :
    (∀ fb ∈ ([(fun _ => PyVal.pyNone, false)] : List ((Row → PyVal) × Bool)), fb.2 = false)
    ∧ (((partitionsOf (fun s r => s ++ [r.getD 2 ""]) ([] : List String) [1]
          [["1", "x", "a"], ["2", "y", "b"], ["3", "x", "c"]]).map Prod.fst
        = firstKeys ([["1", "x", "a"], ["2", "y", "b"], ["3", "x", "c"]].map
            (fun r => makeKey r [1])))
      ∧ (∀ p ∈ partitionsOf (fun s r => s ++ [r.getD 2 ""]) ([] : List String) [1]
            [["1", "x", "a"], ["2", "y", "b"], ["3", "x", "c"]],
          p.2 = (([["1", "x", "a"], ["2", "y", "b"], ["3", "x", "c"]].filter
              (fun r' => makeKey r' [1] = p.1)).foldl (fun s r => s ++ [r.getD 2 ""]) []))
      ∧ (goAgg (fun s r => s ++ [r.getD 2 ""]) ([] : List String)
            (fun s => s) [(fun _ => PyVal.pyNone, false)] [1]
            [["1", "x", "a"], ["2", "y", "b"], ["3", "x", "c"]]).length
          = (firstKeys ([["1", "x", "a"], ["2", "y", "b"], ["3", "x", "c"]].map
              (fun r => makeKey r [1]))).length) :=
  ⟨by simp, taggregate_partition_correct (fun s r => s ++ [r.getD 2 ""]) []
    (fun s => s) [(fun _ => PyVal.pyNone, false)] [1]
    [["1", "x", "a"], ["2", "y", "b"], ["3", "x", "c"]] (by simp)⟩

lemma tunionPhase1_foldl (k1 : List Nat) (t1 : List Row) :
    ∀ (acc : List (List String) × List Row),
      t1.foldl (fun st row => (st.1 ++ [makeKey row k1], st.2 ++ [row])) acc
        = (acc.1 ++ t1.map (fun r => makeKey r k1), acc.2 ++ t1) := by
  induction t1 with
  | nil => intro acc; simp
  | cons r t1 ih =>
      intro acc
      rw [List.foldl_cons, ih]
      simp

lemma tunionPhase1_spec (k1 : List Nat) (t1 : List Row) :
    tunionPhase1 k1 t1 = (t1.map (fun r => makeKey r k1), t1) := by
  unfold tunionPhase1
  rw [tunionPhase1_foldl]
  simp

lemma foldl_reject {α : Type} (P : α → Prop) [DecidablePred P] :
    ∀ (l : List α) (acc : List α),
      l.foldl (fun a x => if P x then a else a ++ [x]) acc
        = acc ++ l.filter (fun x => ¬ P x) := by
  intro l
  induction l with
  | nil => intro acc; simp
  | cons x xs ih =>
      intro acc
      rw [List.foldl_cons, ih, List.filter_cons]
      by_cases hx : P x
      · rw [if_pos hx, decide_eq_false (by simpa using hx)]
        simp
      · rw [if_neg hx, decide_eq_true (by simpa using hx)]
        simp

/-- C7: `TUnion.go` outputs every row of T1 in input order, followed by
exactly those rows of T2 whose key tuple does not occur among the key
tuples of T1, in T2 input order; the selection predicate for a T2 row
depends only on its key tuple. -/
theorem tunion_go_correct (k1 k2 : List Nat) (t1 t2 : List Row) :
    tunionGo k1 k2 t1 t2
      = t1 ++ t2.filter (fun r => makeKey r k2 ∉ t1.map (fun r1 => makeKey r1 k1)) := by
  unfold tunionGo
  rw [tunionPhase1_spec]
  dsimp only
  rw [foldl_reject (fun row => makeKey row k2 ∈ t1.map (fun r => makeKey r k1)) t2 []]
  rw [List.nil_append]

/-- C6: `TableTool.generateOutputRow` applies the compiled expressions in
order.  If the filters preceding some filter all pass and that filter
evaluates to a falsy value, no output row is produced — whatever the
remaining expressions are, they are not consulted.  If every filter
passes, exactly one output row is produced: the counter cell followed by
the generator values in order, a list or tuple value contributing each
of its elements as consecutive columns. -/
theorem generate_output_row_correct {ι : Type} (input : ι) (nOut : Nat) :
    (∀ (pre post : List ((ι → PyVal) × Bool)) (f : ι → PyVal),
      (∀ fb ∈ pre, fb.2 = true → truthy (fb.1 input) = true) →
      truthy (f input) = false →
      generateOutputRow (pre ++ (f, true) :: post) nOut input = none)
    ∧ (∀ fns : List ((ι → PyVal) × Bool),
      (∀ fb ∈ fns, fb.2 = true → truthy (fb.1 input) = true) →
      generateOutputRow fns nOut input
        = some (PyVal.int (nOut + 1) :: (fns.filter (fun fb => !fb.2)).flatMap
            (fun fb => splice (fb.1 input)))) := by
  constructor
  · intro pre post f hpre hf
    exact genLoop_filter_false input pre f post _ hpre hf
  · intro fns h
    unfold generateOutputRow
    rw [genLoop_all_pass input fns _ h]
    rfl

/-- Witness for C6: a passing filter followed by a failing filter yields
no row; a passing filter with a list generator and a scalar generator
yields one row whose columns are the list elements then the scalar. -/
theorem generate_output_row_correct_witness :
    ((∀ fb ∈ ([(fun _ => PyVal.bool true, true)] : List ((Row → PyVal) × Bool)),
        fb.2 = true → truthy (fb.1 ["1", "a"]) = true)
      ∧ truthy ((fun _ => PyVal.int 0) ["1", "a"]) = false
      ∧ generateOutputRow
          ([(fun _ => PyVal.bool true, true)] ++ ((fun _ => PyVal.int 0), true) :: [])
          0 ["1", "a"] = none)
    ∧ ((∀ fb ∈ ([(fun _ => PyVal.bool true, true),
          (fun _ => PyVal.list [PyVal.str "x", PyVal.str "y"], false),
          (fun _ => PyVal.int 5, false)] : List ((Row → PyVal) × Bool)),
        fb.2 = true → truthy (fb.1 ["1", "a"]) = true)
      ∧ generateOutputRow
          [(fun _ => PyVal.bool true, true),
           (fun _ => PyVal.list [PyVal.str "x", PyVal.str "y"], false),
           (fun _ => PyVal.int 5, false)] 0 ["1", "a"]
        = some [PyVal.int 1, PyVal.str "x", PyVal.str "y", PyVal.int 5]) := by
  refine ⟨⟨?_, rfl, ?_⟩, ?_, ?_⟩
  · intro fb hfb _
    simp only [List.mem_singleton] at hfb
    subst hfb
    rfl
  · exact (generate_output_row_correct (["1", "a"] : Row) 0).1
      [(fun _ => PyVal.bool true, true)] [] (fun _ => PyVal.int 0)
      (by intro fb hfb _; simp only [List.mem_singleton] at hfb; subst hfb; rfl) rfl
  · intro fb hfb
    fin_cases hfb <;> simp [truthy]
  · rw [(generate_output_row_correct (["1", "a"] : Row) 0).2
      [(fun _ => PyVal.bool true, true),
       (fun _ => PyVal.list [PyVal.str "x", PyVal.str "y"], false),
       (fun _ => PyVal.int 5, false)]
      (by intro fb hfb; fin_cases hfb <;> simp [truthy])]
    rfl

/-- C8: whenever opening files, loading expressions, or processing
options fails during `TableTool.validate`, the caught exception's
traceback is written to the log, the process terminates with exit
status -1 (a negative, hence non-zero, status), later phases never run
(the outcome of an early failure does not depend on them), and
validation continues only when no phase failed. -/
theorem validate_error_exit :
    (∀ (e : String) (l p : Except String Unit),
        validate (.error e) l p = .exited (-1) (errorExitLog e))
    ∧ (∀ (e : String) (p : Except String Unit),
        validate (.ok ()) (.error e) p = .exited (-1) (errorExitLog e))
    ∧ (∀ e : String, validate (.ok ()) (.ok ()) (.error e) = .exited (-1) (errorExitLog e))
    ∧ validate (.ok ()) (.ok ()) (.ok ()) = ValidateOutcome.ok
    ∧ (∀ e : String, e ∈ errorExitLog e)
    ∧ ((-1 : Int) < 0) :=
  ⟨fun _ _ _ => rfl, fun _ _ => rfl, fun _ => rfl, rfl,
   fun e => by simp [errorExitLog], by decide⟩

lemma genLoop_some {ι : Type} (input : ι) :
    ∀ (fns : List ((ι → PyVal) × Bool)) (out res : List PyVal),
      genLoop input fns out = some res →
      res = out ++ (fns.filter (fun fb => !fb.2)).flatMap
          (fun fb => splice (fb.1 input)) := by
  intro fns
  induction fns with
  | nil =>
      intro out res h
      simp only [genLoop, Option.some_inj] at h
      simp [h.symm]
  | cons fb rest ih =>
      intro out res h
      obtain ⟨f, isF⟩ := fb
      by_cases hf : isF
      · subst hf
        simp only [genLoop] at h
        by_cases ht : truthy (f input) = true
        · rw [if_pos ht] at h
          rw [ih out res h, List.filter_cons]
          simp
        · rw [if_neg ht] at h
          cases h
      · have hf' : isF = false := Bool.eq_false_iff.mpr hf
        subst hf'
        simp only [genLoop, if_false, Bool.false_eq_true] at h
        rw [ih _ res h, List.filter_cons]
        simp

lemma compile_all_filters {ι : Type} (mkDefault : ι → PyVal)
    (args : List (String × (ι → PyVal)))
    (h : ∀ a ∈ args, firstCharIs '?' a.1 = true) :
    compileFunctions mkDefault args
      = args.map (fun a => (a.2, firstCharIs '?' a.1)) ++ [(mkDefault, false)] := by
  unfold compileFunctions
  rw [if_pos (List.all_eq_true.mpr h)]

lemma gor_all_filters {ι : Type} (mkDefault : ι → PyVal)
    (args : List (String × (ι → PyVal))) (n : Nat) (input : ι)
    (h : ∀ a ∈ args, firstCharIs '?' a.1 = true) :
    generateOutputRow (compileFunctions mkDefault args) n input = none
    ∨ generateOutputRow (compileFunctions mkDefault args) n input
        = some (PyVal.int (n + 1) :: splice (mkDefault input)) := by
  cases hres : generateOutputRow (compileFunctions mkDefault args) n input with
  | none => exact Or.inl rfl
  | some res =>
      refine Or.inr ?_
      have hval := genLoop_some input _ _ _ hres
      have hfilter : (compileFunctions mkDefault args).filter (fun fb => !fb.2)
          = [(mkDefault, false)] := by
        rw [compile_all_filters mkDefault args h, List.filter_append]
        have hnil : (args.map (fun a => (a.2, firstCharIs '?' a.1))).filter
            (fun fb => !fb.2) = [] := by
          rw [List.filter_eq_nil_iff]
          intro fb hfb
          obtain ⟨a, ha, hae⟩ := List.mem_map.mp hfb
          rw [← hae]
          simp [h a ha]
        rw [hnil, List.nil_append]
        rfl
      rw [hfilter] at hval
      rw [hval]
      simp

/-- C9: when every positional expression is a filter (or none are
supplied), `compileFunctions` appends the default generator —
`IN[1:]` for one-input tools, `IN1[1:]+IN2[1:]` for two-input tools —
so any output row the tool produces consists of the counter cell
followed by all columns of the input row(s). -/
theorem default_generator_appended
    (argsU : List (String × (Row → PyVal)))
    (argsB : List (String × (Row × Row → PyVal)))
    (n m : Nat) (row : Row) (rowPair : Row × Row)
    (hU : ∀ a ∈ argsU, firstCharIs '?' a.1 = true)
    (hB : ∀ a ∈ argsB, firstCharIs '?' a.1 = true) :
    (compileFunctions defaultGenUnary argsU
        = argsU.map (fun a => (a.2, firstCharIs '?' a.1)) ++ [(defaultGenUnary, false)])
    ∧ (generateOutputRow (compileFunctions defaultGenUnary argsU) n row = none
        ∨ generateOutputRow (compileFunctions defaultGenUnary argsU) n row
            = some (PyVal.int (n + 1) :: (row.drop 1).map PyVal.str))
    ∧ (compileFunctions defaultGenBinary argsB
        = argsB.map (fun a => (a.2, firstCharIs '?' a.1)) ++ [(defaultGenBinary, false)])
    ∧ (generateOutputRow (compileFunctions defaultGenBinary argsB) m rowPair = none
        ∨ generateOutputRow (compileFunctions defaultGenBinary argsB) m rowPair
            = some (PyVal.int (m + 1)
                :: ((rowPair.1.drop 1).map PyVal.str ++ (rowPair.2.drop 1).map PyVal.str))) :=
  ⟨compile_all_filters defaultGenUnary argsU hU,
   gor_all_filters defaultGenUnary argsU n row hU,
   compile_all_filters defaultGenBinary argsB hB,
   gor_all_filters defaultGenBinary argsB m rowPair hB⟩

/-- Witness for C9: one filter argument on the unary side, no arguments
on the binary side. -/
theorem default_generator_appended_witness :
    (∀ a ∈ ([("?IN[2]", fun _ => PyVal.bool true)] : List (String × (Row → PyVal))),
        firstCharIs '?' a.1 = true)
    ∧ (∀ a ∈ ([] : List (String × (Row × Row → PyVal))), firstCharIs '?' a.1 = true)
    ∧ ((compileFunctions defaultGenUnary [("?IN[2]", fun _ => PyVal.bool true)]
          = [("?IN[2]", fun _ => PyVal.bool true)].map
              (fun a => (a.2, firstCharIs '?' a.1)) ++ [(defaultGenUnary, false)])
      ∧ (generateOutputRow (compileFunctions defaultGenUnary
            [("?IN[2]", fun _ => PyVal.bool true)]) 0 ["1", "a", "b"] = none
          ∨ generateOutputRow (compileFunctions defaultGenUnary
              [("?IN[2]", fun _ => PyVal.bool true)]) 0 ["1", "a", "b"]
              = some (PyVal.int (0 + 1) :: (["1", "a", "b"].drop 1).map PyVal.str))
      ∧ (compileFunctions defaultGenBinary []
          = ([] : List (String × (Row × Row → PyVal))).map
              (fun a => (a.2, firstCharIs '?' a.1)) ++ [(defaultGenBinary, false)])
      ∧ (generateOutputRow (compileFunctions defaultGenBinary []) 0 (["1", "x"], ["1", "y"]) = none
          ∨ generateOutputRow (compileFunctions defaultGenBinary []) 0 (["1", "x"], ["1", "y"])
              = some (PyVal.int (0 + 1)
                  :: (((["1", "x"] : Row).drop 1).map PyVal.str
                      ++ ((["1", "y"] : Row).drop 1).map PyVal.str)))) :=
  ⟨fun a ha => by simp only [List.mem_singleton] at ha; subst ha; rfl,
   fun a ha => absurd ha (List.not_mem_nil a),
   default_generator_appended [("?IN[2]", fun _ => PyVal.bool true)] [] 0 0
     ["1", "a", "b"] (["1", "x"], ["1", "y"])
     (fun a ha => by simp only [List.mem_singleton] at ha; subst ha; rfl)
     (fun a ha => absurd ha (List.not_mem_nil a))⟩

lemma splitSep_ne_nil (sep : Char) : ∀ cs : List Char, splitSep sep cs ≠ [] := by
  intro cs
  cases cs with
  | nil => simp [splitSep]
  | cons c rest =>
      simp only [splitSep]
      cases h : splitSep sep rest with
      | nil => simp
      | cons a t => by_cases hc : c = sep <;> simp [hc]

lemma pySplit_length_pos (sep : Char) (s : String) : 0 < (pySplit sep s).length := by
  unfold pySplit
  rw [List.length_map]
  cases h : splitSep sep s.data with
  | nil => exact absurd h (splitSep_ne_nil sep s.data)
  | cons a t => simp

/-- Invariant of the `nextRow` loop: rows come only from data lines,
all returned rows have `ncols` columns where `ncols` is fixed by the
first returned row, and every data line becomes either a returned row
or a warning. -/
lemma readTable_loop (comment : String) (sep : Char) :
    ∀ (lines : List String) (st : IterState),
      (st.ncols = 0 → st.rows = []) →
      (∀ r ∈ st.rows, r.2.length = st.ncols) →
      ((∀ r ∈ (lines.foldl (nextRowStep comment sep) st).rows,
          r ∈ st.rows ∨ ∃ l, l ∈ lines ∧ isDataLine comment l = true ∧ r.2 = pySplit sep l)
        ∧ ((lines.foldl (nextRowStep comment sep) st).ncols = 0 →
            (lines.foldl (nextRowStep comment sep) st).rows = [])
        ∧ (∀ r ∈ (lines.foldl (nextRowStep comment sep) st).rows,
            r.2.length = (lines.foldl (nextRowStep comment sep) st).ncols)
        ∧ ((lines.foldl (nextRowStep comment sep) st).rows.length
            + (lines.foldl (nextRowStep comment sep) st).warnings.length
            = st.rows.length + st.warnings.length
              + (lines.filter (isDataLine comment)).length)) := by
  intro lines
  induction lines with
  | nil =>
      intro st h0 hlen
      exact ⟨fun r hr => Or.inl hr, h0, hlen, by simp⟩
  | cons l lines ih =>
      intro st h0 hlen
      simp only [List.foldl_cons]
      by_cases hskip : (l = "" ∨ comment.data.isPrefixOf l.data)
      · -- blank or comment line: state unchanged apart from the line counter
        have hstep : nextRowStep comment sep st l = { st with lineNum := st.lineNum + 1 } := by
          unfold nextRowStep
          rw [if_pos hskip]
        have hdata : isDataLine comment l = false := by
          unfold isDataLine
          rw [decide_eq_true hskip]
          rfl
        rw [hstep]
        have ihr := ih { st with lineNum := st.lineNum + 1 } (by simpa using h0)
          (by simpa using hlen)
        refine ⟨?_, ihr.2.1, ihr.2.2.1, ?_⟩
        · intro r hr
          rcases ihr.1 r hr with h | ⟨l', hl', hd', he'⟩
          · exact Or.inl (by simpa using h)
          · exact Or.inr ⟨l', List.mem_cons_of_mem _ hl', hd', he'⟩
        · have hcount := ihr.2.2.2
          simp [List.filter_cons, hdata] at hcount ⊢
          omega
      · have hdata : isDataLine comment l = true := by
          unfold isDataLine
          rw [decide_eq_false hskip]
          rfl
        by_cases hnc : st.ncols = 0
        · -- first data row fixes the column count
          have hstep : nextRowStep comment sep st l =
              { lineNum := st.lineNum + 1
                rowNum := st.rowNum + 1
                ncols := (pySplit sep l).length
                rows := st.rows ++ [(st.rowNum + 1, pySplit sep l)]
                warnings := st.warnings } := by
            unfold nextRowStep
            rw [if_neg hskip, if_pos hnc]
          have hrows0 : st.rows = [] := h0 hnc
          rw [hstep]
          have ihr := ih
            { lineNum := st.lineNum + 1
              rowNum := st.rowNum + 1
              ncols := (pySplit sep l).length
              rows := st.rows ++ [(st.rowNum + 1, pySplit sep l)]
              warnings := st.warnings }
            (by
              intro hc
              exact absurd hc.symm (Nat.ne_of_lt (pySplit_length_pos sep l)))
            (by
              intro r hr
              rw [hrows0, List.nil_append, List.mem_singleton] at hr
              rw [hr])
          refine ⟨?_, ihr.2.1, ihr.2.2.1, ?_⟩
          · intro r hr
            rcases ihr.1 r hr with h | ⟨l', hl', hd', he'⟩
            · rw [hrows0, List.nil_append, List.mem_singleton] at h
              exact Or.inr ⟨l, List.mem_cons_self _ _, hdata, by rw [h]⟩
            · exact Or.inr ⟨l', List.mem_cons_of_mem _ hl', hd', he'⟩
          · have hcount := ihr.2.2.2
            simp [List.filter_cons, hdata, hrows0] at hcount ⊢
            omega
        · by_cases hmis : st.ncols ≠ (pySplit sep l).length
          · -- wrong column count: warn and skip
            have hstep : nextRowStep comment sep st l =
                { st with
                  lineNum := st.lineNum + 1
                  rowNum := st.rowNum + 1
                  warnings := st.warnings ++ [st.lineNum + 1] } := by
              unfold nextRowStep
              rw [if_neg hskip, if_neg hnc, if_pos hmis]
            rw [hstep]
            have ihr := ih
              { st with
                lineNum := st.lineNum + 1
                rowNum := st.rowNum + 1
                warnings := st.warnings ++ [st.lineNum + 1] }
              (by simpa using h0) (by simpa using hlen)
            refine ⟨?_, ihr.2.1, ihr.2.2.1, ?_⟩
            · intro r hr
              rcases ihr.1 r hr with h | ⟨l', hl', hd', he'⟩
              · exact Or.inl (by simpa using h)
              · exact Or.inr ⟨l', List.mem_cons_of_mem _ hl', hd', he'⟩
            · have hcount := ihr.2.2.2
              simp [List.filter_cons, hdata] at hcount ⊢
              omega
          · -- matching data row
            have hstep : nextRowStep comment sep st l =
                { st with
                  lineNum := st.lineNum + 1
                  rowNum := st.rowNum + 1
                  rows := st.rows ++ [(st.rowNum + 1, pySplit sep l)] } := by
              unfold nextRowStep
              rw [if_neg hskip, if_neg hnc, if_neg hmis]
            have hlen' : (pySplit sep l).length = st.ncols := by
              by_contra hc
              exact hmis (fun he => hc he.symm)
            rw [hstep]
            have ihr := ih
              { st with
                lineNum := st.lineNum + 1
                rowNum := st.rowNum + 1
                rows := st.rows ++ [(st.rowNum + 1, pySplit sep l)] }
              (by intro hc; exact absurd hc hnc)
              (by
                intro r hr
                simp only [List.mem_append, List.mem_singleton] at hr
                rcases hr with hr | hr
                · exact hlen r hr
                · rw [hr]
                  exact hlen')
            refine ⟨?_, ihr.2.1, ihr.2.2.1, ?_⟩
            · intro r hr
              rcases ihr.1 r hr with h | ⟨l', hl', hd', he'⟩
              · simp only [List.mem_append, List.mem_singleton] at h
                rcases h with h | h
                · exact Or.inl h
                · exact Or.inr ⟨l, List.mem_cons_self _ _, hdata, by rw [h]⟩
              · exact Or.inr ⟨l', List.mem_cons_of_mem _ hl', hd', he'⟩
            · have hcount := ihr.2.2.2
              simp [List.filter_cons, hdata] at hcount ⊢
              omega

/-- C5: `TableFileIterator.nextRow` never returns a row built from a
blank line or a comment line, every returned row has the same number of
columns as the first returned row, and a data line whose column count
differs from the first data row's produces a warning and is skipped
instead of raising — every data line accounts for exactly one returned
row or one warning. -/
theorem tablefileiterator_nextrow (comment : String) (sep : Char) (lines : List String) :
    (∀ r ∈ (readTable comment sep lines).rows,
        ∃ l, l ∈ lines ∧ isDataLine comment l = true ∧ r.2 = pySplit sep l)
    ∧ (∀ r ∈ (readTable comment sep lines).rows,
        ∀ r' ∈ (readTable comment sep lines).rows, r.2.length = r'.2.length)
    ∧ ((readTable comment sep lines).rows.length
        + (readTable comment sep lines).warnings.length
        = (lines.filter (isDataLine comment)).length) := by
  have hloop := readTable_loop comment sep lines ⟨0, 0, 0, [], []⟩
    (fun _ => rfl) (by intro r hr; cases hr)
  refine ⟨?_, ?_, ?_⟩
  · intro r hr
    rcases hloop.1 r hr with h | h
    · cases h
    · exact h
  · intro r hr r' hr'
    rw [hloop.2.2.1 r hr, hloop.2.2.1 r' hr']
  · have := hloop.2.2.2
    simpa using this

/-- Witness for C5 on a concrete stream: a data row, a blank line, a
comment line, a mismatching data line (warned and skipped), and a
second matching data row. -/
theorem tablefileiterator_nextrow_witness :
    (∀ r ∈ (readTable "#" '\t' ["a\tb", "", "#c", "x\ty\tz", "p\tq"]).rows,
        ∃ l, l ∈ ["a\tb", "", "#c", "x\ty\tz", "p\tq"]
          ∧ isDataLine "#" l = true ∧ r.2 = pySplit '\t' l)
    ∧ (∀ r ∈ (readTable "#" '\t' ["a\tb", "", "#c", "x\ty\tz", "p\tq"]).rows,
        ∀ r' ∈ (readTable "#" '\t' ["a\tb", "", "#c", "x\ty\tz", "p\tq"]).rows,
          r.2.length = r'.2.length)
    ∧ ((readTable "#" '\t' ["a\tb", "", "#c", "x\ty\tz", "p\tq"]).rows.length
        + (readTable "#" '\t' ["a\tb", "", "#c", "x\ty\tz", "p\tq"]).warnings.length
        = (["a\tb", "", "#c", "x\ty\tz", "p\tq"].filter (isDataLine "#")).length) :=
  tablefileiterator_nextrow "#" '\t' ["a\tb", "", "#c", "x\ty\tz", "p\tq"]

/-- C3 (code-bug evidence): the `-k 1` key parses with reverse flag
`false`, yet `TSort` orders the rows descending on column 1 — and the
`:r` suffix changes nothing, because `doSort` calls
`rows.sort(key=kfun, reverse=True)` with the constant `True`, ignoring
its `reverse` parameter.  The claimed ascending default order `[a, b]`
is never produced. -/
theorem tsort_always_descending :
    parseSortKey "1" = some (1, false)
    ∧ parseSortKey "1:r" = some (1, true)
    ∧ tsortGo [(1, false)] [["1", "a"], ["2", "b"]] = [["2", "b"], ["1", "a"]]
    ∧ tsortGo [(1, true)] [["1", "a"], ["2", "b"]] = [["2", "b"], ["1", "a"]]
    ∧ (∀ rows : List Row, doSort rows 1 false = doSort rows 1 true) :=
  ⟨by decide, by decide, by decide, by decide, fun _ => rfl⟩

/-- C10 (code-bug evidence): expanding a well-formed list-valued cell
raises `TypeError`, because `expandValue` evaluates
`list(map(conv, ...))` with the default `conv=None` — in Python 3 `None`
is not callable.  No parallel row expansion ever happens on a
successfully parsed string column. -/
theorem txpand_expandrow_typeerror :
    expandRow [(2, "[", ',', "]")] [PyVal.int 1, PyVal.str "x", PyVal.str "[a,b]"]
      = .error PyErr.convNotCallable
    ∧ expandValue (PyVal.str "[a,b]") "[" ',' "]" none = .error PyErr.convNotCallable :=
  ⟨rfl, rfl⟩

/-- With the `conv` slip repaired (Python 2's `map(None, xs)` was the
identity), the expansion behaves as documented: here two columns expand
in parallel to `max 1 3 2 = 3` rows, the shorter column is padded with
`''`, and the unexpanded column 0 repeats unchanged. -/
theorem txpand_fixed_parallel_example :
    expandRowFixed [(1, "", ',', ""), (2, "", ',', "")]
      [PyVal.int 7, PyVal.str "a,b,c", PyVal.str "u,v"]
      = .ok [[PyVal.int 7, PyVal.str "a", PyVal.str "u"],
             [PyVal.int 7, PyVal.str "b", PyVal.str "v"],
             [PyVal.int 7, PyVal.str "c", PyVal.str ""]] := rfl

lemma foldl_append_singleton {α : Type} :
    ∀ (l acc : List α), l.foldl (fun a x => a ++ [x]) acc = acc ++ l := by
  intro l
  induction l with
  | nil => intro acc; simp
  | cons x xs ih =>
      intro acc
      rw [List.foldl_cons, ih]
      simp

lemma loadInner_values (ji : List Nat) (ti : List Row) :
    ∀ p ∈ loadInner ji ti, p.2 = ti.filter (fun r => makeKey r ji = p.1) := by
  intro p hp
  have hbase := (partitions_loop_spec (fun (l : List Row) r => l ++ [r]) [] ji ti [] []
    (by rfl) (by intro q hq; cases hq)).2
  rw [List.nil_append] at hbase
  rw [hbase p hp, foldl_append_singleton]
  simp

lemma loadInner_keys (ji : List Nat) (ti : List Row) :
    (loadInner ji ti).map Prod.fst = firstKeys (ti.map (fun r => makeKey r ji)) := by
  have hbase := (partitions_loop_spec (fun (l : List Row) r => l ++ [r]) [] ji ti [] []
    (by rfl) (by intro q hq; cases hq)).1
  rw [List.nil_append] at hbase
  exact hbase

lemma lookupInner_some (ji : List Nat) (ti : List Row) (k : List String)
    (v : List Row) (h : lookupInner (loadInner ji ti) k = some v) :
    v = ti.filter (fun r => makeKey r ji = k) := by
  unfold lookupInner at h
  cases hf : (loadInner ji ti).find? (fun p => p.1 = k) with
  | none => rw [hf] at h; cases h
  | some p =>
      rw [hf] at h
      have hv : p.2 = v := by
        simpa using h
      have hpk : p.1 = k := by
        have := List.find?_some hf
        simpa using this
      have hmem := List.mem_of_find?_eq_some hf
      rw [← hv, loadInner_values ji ti p hmem, hpk]

lemma lookupInner_none (ji : List Nat) (ti : List Row) (k : List String)
    (h : lookupInner (loadInner ji ti) k = none) :
    ti.filter (fun r => makeKey r ji = k) = [] := by
  unfold lookupInner at h
  have hf : (loadInner ji ti).find? (fun p => p.1 = k) = none := by
    cases hf : (loadInner ji ti).find? (fun p => p.1 = k) with
    | none => rfl
    | some p => rw [hf] at h; cases h
  rw [List.find?_eq_none] at hf
  have hk : k ∉ (loadInner ji ti).map Prod.fst := by
    intro hmem
    obtain ⟨p, hp, hpe⟩ := List.mem_map.mp hmem
    exact hf p hp (by simpa using hpe)
  rw [loadInner_keys, mem_firstKeys] at hk
  rw [List.filter_eq_nil_iff]
  intro r hr hdec
  exact hk (List.mem_map.mpr ⟨r, hr, of_decide_eq_true hdec⟩)

lemma scanOuter_eq (jo ji : List Nat) (touter ti : List Row) :
    scanOuterPairs (loadInner ji ti) jo touter
      = touter.flatMap (fun o =>
          (ti.filter (fun i => makeKey i ji = makeKey o jo)).map (fun i => (o, i))) := by
  unfold scanOuterPairs
  congr 1
  funext o
  cases hl : lookupInner (loadInner ji ti) (makeKey o jo) with
  | some v => rw [lookupInner_some ji ti _ v hl]
  | none =>
      rw [lookupInner_none ji ti _ hl]
      rfl

lemma count_pair_map (o ro ri : Row) (l : List Row) :
    ((l.map (fun i => (o, i))).count (ro, ri)) = if o = ro then l.count ri else 0 := by
  induction l with
  | nil => simp
  | cons i l ih =>
      simp only [List.map_cons, List.count_cons, ih]
      by_cases ho : o = ro
      · subst ho
        by_cases hir : i = ri
        · subst hir
          simp
        · simp [hir, Prod.ext_iff]
      · simp [ho, Prod.ext_iff]

lemma count_filter_key (ti : List Row) (ri : Row) (p : Row → Bool) :
    (ti.filter p).count ri = if p ri then ti.count ri else 0 := by
  induction ti with
  | nil => simp
  | cons i ti ih =>
      by_cases hir : i = ri
      · subst hir
        by_cases hpi : p i = true <;> simp [List.filter_cons, hpi, List.count_cons, ih]
      · by_cases hpi : p i = true <;> simp [List.filter_cons, hpi, List.count_cons, hir, ih]

lemma map_sum_ite (touter : List Row) (ro : Row) (c : Nat) :
    (touter.map (fun o => if o = ro then c else 0)).sum = touter.count ro * c := by
  induction touter with
  | nil => simp
  | cons o touter ih =>
      simp only [List.map_cons, List.sum_cons, List.count_cons, ih]
      by_cases ho : o = ro
      · simp [ho]
        ring
      · simp [ho]

lemma count_map_swap (l : List (Row × Row)) (a b : Row) :
    ((l.map (fun p => (p.2, p.1))).count (a, b)) = l.count (b, a) := by
  induction l with
  | nil => rfl
  | cons p l ih =>
      simp only [List.map_cons, List.count_cons, ih]
      by_cases hp : p = (b, a)
      · simp [hp]
      · have : ¬ (p.2, p.1) = (a, b) := by
          intro hc
          exact hp (by
            obtain ⟨x, y⟩ := p
            simp only [Prod.mk.injEq] at hc
            simp [hc.1, hc.2])
        simp [hp, this]

lemma scanOuter_count (jo ji : List Nat) (touter ti : List Row) (ro ri : Row) :
    (scanOuterPairs (loadInner ji ti) jo touter).count (ro, ri)
      = if makeKey ro jo = makeKey ri ji then touter.count ro * ti.count ri else 0 := by
  rw [scanOuter_eq, List.count_flatMap]
  have hpt : (touter.map (List.count (ro, ri) ∘ fun o =>
        (ti.filter (fun i => makeKey i ji = makeKey o jo)).map (fun i => (o, i))))
      = touter.map (fun o =>
          if o = ro then (if makeKey ro jo = makeKey ri ji then ti.count ri else 0) else 0) := by
    apply List.map_congr_left
    intro o _
    simp only [Function.comp_apply]
    rw [count_pair_map, count_filter_key]
    by_cases ho : o = ro
    · subst ho
      by_cases hc : makeKey o jo = makeKey ri ji
      · rw [if_pos rfl, if_pos rfl, if_pos (decide_eq_true hc.symm), if_pos hc]
      · rw [if_pos rfl, if_pos rfl, if_neg (by simpa using fun hx => hc hx.symm), if_neg hc]
    · rw [if_neg ho, if_neg ho]
  rw [hpt, map_sum_ite]
  by_cases hc : makeKey ro jo = makeKey ri ji
  · rw [if_pos hc, if_pos hc]
  · rw [if_neg hc, if_neg hc, Nat.mul_zero]

/-- C2: when both `TJoin` inputs are named files of different sizes the
table loaded into memory (`self.t2` after `pickInnerOuter`) is the
smaller one, and the inner/outer choice never changes the join result:
for either value of the swap flag, the multiset of emitted pairs
contains each (T1 row, T2 row) pair — bound to IN1 and IN2 in that
order — exactly once per occurrence of the two rows, precisely when
their join-key columns are equal. -/
theorem tjoin_pick_inner_and_equivalence
    (s1 s2 : Int) (j1 j2 : List Nat) (t1 t2 : List Row) (r1 r2 : Row)
    (h1 : 0 ≤ s1) (h2 : 0 ≤ s2) (hne : s1 ≠ s2) :
    ((if pickSwap s1 s2 then s1 else s2) = min s1 s2)
    ∧ (∀ sw : Bool, (tjoinPairs sw j1 j2 t1 t2).count (r1, r2)
        = if makeKey r1 j1 = makeKey r2 j2 then t1.count r1 * t2.count r2 else 0) := by
  constructor
  · rcases lt_or_gt_of_ne hne with h | h
    · have hp : pickSwap s1 s2 = true := by
        unfold pickSwap
        simp only [Bool.and_eq_true, Bool.or_eq_true, decide_eq_true_eq]
        omega
      rw [if_pos hp, min_eq_left h.le]
    · have hp : ¬ pickSwap s1 s2 = true := by
        unfold pickSwap
        simp only [Bool.and_eq_true, Bool.or_eq_true, decide_eq_true_eq]
        omega
      rw [if_neg hp, min_eq_right h.le]
  · intro sw
    cases sw with
    | false =>
        unfold tjoinPairs
        rw [if_neg (by simp)]
        exact scanOuter_count j1 j2 t1 t2 r1 r2
    | true =>
        unfold tjoinPairs
        rw [if_pos rfl]
        rw [count_map_swap, scanOuter_count j2 j1 t2 t1 r2 r1]
        by_cases hc : makeKey r1 j1 = makeKey r2 j2
        · rw [if_pos (hc.symm), if_pos hc, Nat.mul_comm]
        · rw [if_neg (fun hx => hc hx.symm), if_neg hc]

lemma mem_keys_iff_find?_isSome (g : BGraph) (n : Node) :
    n ∈ g.map Prod.fst ↔ (g.find? (fun p => p.1 = n)).isSome = true := by
  rw [List.find?_isSome]
  simp

lemma find?_eq_none_of_not_mem_keys {g : BGraph} {n : Node}
    (h : n ∉ g.map Prod.fst) : g.find? (fun p => p.1 = n) = none := by
  cases hf : g.find? (fun p => p.1 = n) with
  | none => rfl
  | some p =>
      exact absurd ((mem_keys_iff_find?_isSome g n).mpr (by rw [hf]; rfl)) h

lemma ensureKey_keys (g : BGraph) (n : Node) :
    (ensureKey g n).map Prod.fst =
      if n ∈ g.map Prod.fst then g.map Prod.fst else g.map Prod.fst ++ [n] := by
  unfold ensureKey
  by_cases h : n ∈ g.map Prod.fst
  · rw [if_pos ((mem_keys_iff_find?_isSome g n).mp h), if_pos h]
  · rw [if_neg (by rw [← mem_keys_iff_find?_isSome]; exact h), if_neg h,
      List.map_append]
    rfl

lemma adj_append_single (g : BGraph) (e : Node × List Node) (m : Node) :
    adj (g ++ [e]) m =
      if (g.find? (fun p => p.1 = m)).isSome then adj g m
      else (if e.1 = m then e.2 else []) := by
  unfold adj
  rw [List.find?_append]
  cases hf : g.find? (fun p => p.1 = m) with
  | some p => simp [hf]
  | none =>
      by_cases he : e.1 = m <;> simp [hf, List.find?_cons, he]

lemma adj_ensureKey (g : BGraph) (n m : Node) :
    adj (ensureKey g n) m = adj g m := by
  unfold ensureKey
  by_cases h : (g.find? (fun p => p.1 = n)).isSome
  · rw [if_pos h]
  · rw [if_neg h, adj_append_single]
    by_cases hm : (g.find? (fun p => p.1 = m)).isSome = true
    · rw [if_pos hm]
    · rw [if_neg hm]
      have hnone : g.find? (fun p => p.1 = m) = none := by
        cases hf : g.find? (fun p => p.1 = m) with
        | none => rfl
        | some p => rw [hf] at hm; exact absurd rfl hm
      unfold adj
      rw [hnone]
      by_cases hnm : (n, ([] : List Node)).1 = m <;> simp [hnm]

lemma addNbr_keys (g : BGraph) (n m : Node) :
    (addNbr g n m).map Prod.fst = g.map Prod.fst := by
  unfold addNbr
  rw [List.map_map]
  apply List.map_congr_left
  intro p _
  by_cases hp : p.1 = n <;> simp [hp]

lemma mem_adj_addNbr (g : BGraph) (n m x y : Node) :
    y ∈ adj (addNbr g n m) x ↔
      y ∈ adj g x ∨ (x = n ∧ x ∈ g.map Prod.fst ∧ y = m) := by
  unfold adj addNbr
  rw [List.find?_map]
  have hpred : ((fun p : Node × List Node => decide (p.1 = x)) ∘
      (fun p => if p.1 = n then (p.1, if m ∈ p.2 then p.2 else p.2 ++ [m]) else p))
      = fun p => decide (p.1 = x) := by
    funext p
    by_cases hp : p.1 = n <;> simp [hp]
  rw [hpred]
  cases hf : g.find? (fun p => p.1 = x) with
  | none =>
      have hx : x ∉ g.map Prod.fst := by
        rw [mem_keys_iff_find?_isSome, hf]
        simp
      simp [hx]
  | some p =>
      have hpx : p.1 = x := by simpa using List.find?_some hf
      simp only [Option.map_some', Option.getD_some]
      by_cases hpn : p.1 = n
      · have hxn : x = n := hpx ▸ hpn
        have hxmem : x ∈ g.map Prod.fst := by
          rw [mem_keys_iff_find?_isSome, hf]
          rfl
        rw [if_pos hpn]
        dsimp only
        by_cases hm : m ∈ p.2
        · rw [if_pos hm]
          constructor
          · intro h
            exact Or.inl h
          · rintro (h | ⟨-, -, rfl⟩)
            · exact h
            · exact hm
        · rw [if_neg hm]
          simp only [List.mem_append, List.mem_singleton]
          constructor
          · rintro (h | h)
            · exact Or.inl h
            · exact Or.inr ⟨hxn, hxmem, h⟩
          · rintro (h | ⟨-, -, h⟩)
            · exact Or.inl h
            · exact Or.inr h
      · have hxn : ¬ x = n := fun hc => hpn (hpx.trans hc)
        rw [if_neg hpn]
        simp [hxn]

/-- Key-set effect of one `BipartiteGraph.add` call with two non-null
keys: exactly `a` and `b` may join the key set. -/
lemma bgAdd_keys_mem (g : BGraph) (a b : Node) (x : Node) :
    x ∈ (bgAdd g (some a) (some b)).map Prod.fst ↔
      (x ∈ g.map Prod.fst ∨ x = a ∨ x = b) := by
  unfold bgAdd bgAddHalf
  rw [addNbr_keys, ensureKey_keys, addNbr_keys, ensureKey_keys]
  by_cases ha : a ∈ g.map Prod.fst
  · simp only [ha, if_true]
    by_cases hb : b ∈ g.map Prod.fst
    · simp only [hb, if_true]
      constructor
      · exact fun h => Or.inl h
      · rintro (h | rfl | rfl)
        · exact h
        · exact ha
        · exact hb
    · simp only [hb, if_false]
      simp only [List.mem_append, List.mem_singleton]
      constructor
      · rintro (h | h)
        · exact Or.inl h
        · exact Or.inr (Or.inr h)
      · rintro (h | rfl | rfl)
        · exact Or.inl h
        · exact Or.inl ha
        · exact Or.inr rfl
  · simp only [ha, if_false]
    by_cases hb : b ∈ g.map Prod.fst ++ [a]
    · simp only [hb, if_true, List.mem_append, List.mem_singleton]
      constructor
      · rintro (h | h)
        · exact Or.inl h
        · exact Or.inr (Or.inl h)
      · rintro (h | rfl | rfl)
        · exact Or.inl h
        · exact Or.inr rfl
        · rcases List.mem_append.mp hb with h | h
          · exact Or.inl h
          · exact Or.inr (List.mem_singleton.mp h)
    · simp only [hb, if_false, List.mem_append, List.mem_singleton]
      constructor
      · rintro ((h | h) | h)
        · exact Or.inl h
        · exact Or.inr (Or.inl h)
        · exact Or.inr (Or.inr h)
      · rintro (h | rfl | rfl)
        · exact Or.inl (Or.inl h)
        · exact Or.inl (Or.inr rfl)
        · exact Or.inr rfl

/-- Key-set duplicate-freedom is preserved by `BipartiteGraph.add`. -/
lemma bgAdd_keys_nodup (g : BGraph) (a b : Node)
    (h : (g.map Prod.fst).Nodup) :
    ((bgAdd g (some a) (some b)).map Prod.fst).Nodup := by
  unfold bgAdd bgAddHalf
  rw [addNbr_keys, ensureKey_keys, addNbr_keys, ensureKey_keys]
  by_cases ha : a ∈ g.map Prod.fst
  · simp only [ha, if_true]
    by_cases hb : b ∈ g.map Prod.fst
    · simp only [hb, if_true]
      exact h
    · simp only [hb, if_false]
      simp [List.nodup_append, h, hb]
  · simp only [ha, if_false]
    by_cases hb : b ∈ g.map Prod.fst ++ [a]
    · simp only [hb, if_true]
      simp [List.nodup_append, h, ha]
    · simp only [hb, if_false]
      simp only [List.mem_append, List.mem_singleton, not_or] at hb
      have hab : ¬ a = b := fun hc => hb.2 hc.symm
      simp [List.nodup_append, h, ha, hb.1, hab]

/-- Adjacency effect of one `BipartiteGraph.add` call with two non-null
distinct keys: exactly the edge `a — b` is added, in both directions. -/
lemma bgAdd_adj_mem (g : BGraph) (a b : Node) (x y : Node) :
    y ∈ adj (bgAdd g (some a) (some b)) x ↔
      y ∈ adj g x ∨ (x = a ∧ y = b) ∨ (x = b ∧ y = a) := by
  unfold bgAdd bgAddHalf
  dsimp only
  rw [mem_adj_addNbr, adj_ensureKey, mem_adj_addNbr, adj_ensureKey,
    ensureKey_keys, ensureKey_keys, addNbr_keys, ensureKey_keys]
  have hamem : a ∈ (if a ∈ g.map Prod.fst then g.map Prod.fst
      else g.map Prod.fst ++ [a]) := by
    by_cases ha : a ∈ g.map Prod.fst
    · rw [if_pos ha]
      exact ha
    · rw [if_neg ha]
      simp
  have hbmem : b ∈ (if b ∈ (if a ∈ g.map Prod.fst then g.map Prod.fst
        else g.map Prod.fst ++ [a])
      then (if a ∈ g.map Prod.fst then g.map Prod.fst else g.map Prod.fst ++ [a])
      else (if a ∈ g.map Prod.fst then g.map Prod.fst
        else g.map Prod.fst ++ [a]) ++ [b]) := by
    by_cases hb : b ∈ (if a ∈ g.map Prod.fst then g.map Prod.fst
        else g.map Prod.fst ++ [a])
    · rw [if_pos hb]
      exact hb
    · rw [if_neg hb]
      simp
  constructor
  · rintro ((h | ⟨hxa, -, hyb⟩) | ⟨hxb, -, hya⟩)
    · exact Or.inl h
    · exact Or.inr (Or.inl ⟨hxa, hyb⟩)
    · exact Or.inr (Or.inr ⟨hxb, hya⟩)
  · rintro (h | ⟨hxa, hyb⟩ | ⟨hxb, hya⟩)
    · exact Or.inl (Or.inl h)
    · exact Or.inl (Or.inr ⟨hxa, hxa ▸ hamem, hyb⟩)
    · exact Or.inr ⟨hxb, hxb ▸ hbmem, hya⟩

/-- Witness for C2: files of sizes 3 and 7 bytes, a one-column join key,
and concrete two-row tables. -/
theorem tjoin_pick_inner_and_equivalence_witness :
    ((0 : Int) ≤ 3 ∧ (0 : Int) ≤ 7 ∧ (3 : Int) ≠ 7)
    ∧ (((if pickSwap 3 7 then (3 : Int) else 7) = min 3 7)
      ∧ (∀ sw : Bool,
          (tjoinPairs sw [1] [1] [["1", "a"], ["2", "b"]]
            [["1", "a"], ["2", "c"]]).count (["1", "a"], ["1", "a"])
          = if makeKey ["1", "a"] [1] = makeKey ["1", "a"] [1] then
              [["1", "a"], ["2", "b"]].count ["1", "a"]
                * [["1", "a"], ["2", "c"]].count ["1", "a"]
            else 0)) :=
  ⟨⟨by decide, by decide, by decide⟩,
   tjoin_pick_inner_and_equivalence 3 7 [1] [1] [["1", "a"], ["2", "b"]]
     [["1", "a"], ["2", "c"]] ["1", "a"] ["1", "a"]
     (by decide) (by decide) (by decide)⟩

lemma keyVals_length (nullStr : String) (row : Row) :
    ∀ (cols : List Nat) (vs : List String),
      keyVals nullStr row cols = some vs → vs.length = cols.length := by
  intro cols
  induction cols with
  | nil =>
      intro vs h
      simp only [keyVals, Option.some_inj] at h
      rw [← h]
      rfl
  | cons c cs ih =>
      intro vs h
      simp only [keyVals] at h
      by_cases hc : row.getD c "" = nullStr
      · rw [if_pos hc] at h
        cases h
      · rw [if_neg hc] at h
        cases hv : keyVals nullStr row cs with
        | none => rw [hv] at h; cases h
        | some vs' =>
            rw [hv] at h
            simp only [Option.map_some', Option.some_inj] at h
            rw [← h, List.length_cons, ih vs' hv]
            rfl

lemma tbMakeKey_shape (nullStr : String) (row : Row) (cols : List Nat)
    (side : Side) (nd : Node) (h : tbMakeKey nullStr row cols side = some nd) :
    nd.1 = side ∧ nd.2.length = cols.length := by
  unfold tbMakeKey at h
  cases hv : keyVals nullStr row cols with
  | none => rw [hv] at h; cases h
  | some vs =>
      rw [hv] at h
      simp only [Option.map_some', Option.some_inj] at h
      rw [← h]
      exact ⟨rfl, keyVals_length nullStr row cols vs hv⟩

lemma mem_keys_ensureKey (g : BGraph) (n x : Node) :
    x ∈ (ensureKey g n).map Prod.fst ↔ x ∈ g.map Prod.fst ∨ x = n := by
  rw [ensureKey_keys]
  by_cases h : n ∈ g.map Prod.fst
  · rw [if_pos h]
    constructor
    · exact Or.inl
    · rintro (hx | rfl)
      · exact hx
      · exact h
  · rw [if_neg h]
    simp

lemma WF_ensureKey (g : BGraph) (n1 n2 : Nat) (nd : Node) (hwf : WF g n1 n2)
    (hshape : nd.1 = Side.A ∧ nd.2.length = n1 ∨ nd.1 = Side.B ∧ nd.2.length = n2) :
    WF (ensureKey g nd) n1 n2 := by
  obtain ⟨hnd, h2, h3, h4, h5⟩ := hwf
  refine ⟨?_, ?_, ?_, ?_, ?_⟩
  · rw [ensureKey_keys]
    by_cases h : nd ∈ g.map Prod.fst
    · rw [if_pos h]
      exact hnd
    · rw [if_neg h]
      simp [List.nodup_append, hnd, h]
  · intro x y hy
    rw [adj_ensureKey] at hy
    exact (mem_keys_ensureKey g nd y).mpr (Or.inl (h2 x y hy))
  · intro x y hy
    rw [adj_ensureKey] at hy
    rw [adj_ensureKey]
    exact h3 x y hy
  · intro x y hy
    rw [adj_ensureKey] at hy
    exact h4 x y hy
  · intro x hx
    rcases (mem_keys_ensureKey g nd x).mp hx with hx | rfl
    · exact h5 x hx
    · exact hshape

lemma WF_bgAdd (g : BGraph) (n1 n2 : Nat) (a b : Option Node) (hwf : WF g n1 n2)
    (ha : ∀ nd, a = some nd → nd.1 = Side.A ∧ nd.2.length = n1)
    (hb : ∀ nd, b = some nd → nd.1 = Side.B ∧ nd.2.length = n2) :
    WF (bgAdd g a b) n1 n2 := by
  cases a with
  | none =>
      cases b with
      | none => exact hwf
      | some b' =>
          exact WF_ensureKey g n1 n2 b' hwf (Or.inr (hb b' rfl))
  | some a' =>
      cases b with
      | none =>
          exact WF_ensureKey g n1 n2 a' hwf (Or.inl (ha a' rfl))
      | some b' =>
          obtain ⟨hnd, h2, h3, h4, h5⟩ := hwf
          have hsa := ha a' rfl
          have hsb := hb b' rfl
          refine ⟨bgAdd_keys_nodup g a' b' hnd, ?_, ?_, ?_, ?_⟩
          · intro x y hy
            rcases (bgAdd_adj_mem g a' b' x y).mp hy with h | ⟨-, hyb⟩ | ⟨-, hya⟩
            · exact (bgAdd_keys_mem g a' b' y).mpr (Or.inl (h2 x y h))
            · exact (bgAdd_keys_mem g a' b' y).mpr (Or.inr (Or.inr hyb))
            · exact (bgAdd_keys_mem g a' b' y).mpr (Or.inr (Or.inl hya))
          · intro x y hy
            rcases (bgAdd_adj_mem g a' b' x y).mp hy with h | ⟨hxa, hyb⟩ | ⟨hxb, hya⟩
            · exact (bgAdd_adj_mem g a' b' y x).mpr (Or.inl (h3 x y h))
            · exact (bgAdd_adj_mem g a' b' y x).mpr (Or.inr (Or.inr ⟨hyb, hxa⟩))
            · exact (bgAdd_adj_mem g a' b' y x).mpr (Or.inr (Or.inl ⟨hya, hxb⟩))
          · intro x y hy
            rcases (bgAdd_adj_mem g a' b' x y).mp hy with h | ⟨hxa, hyb⟩ | ⟨hxb, hya⟩
            · exact h4 x y h
            · rw [hxa, hyb, hsa.1, hsb.1]
              intro hc
              cases hc
            · rw [hxb, hya, hsa.1, hsb.1]
              intro hc
              cases hc
          · intro x hx
            rcases (bgAdd_keys_mem g a' b' x).mp hx with hx | rfl | rfl
            · exact h5 x hx
            · exact Or.inl hsa
            · exact Or.inr hsb

lemma buildGraph_WF (nullStr : String) (k1 k2 : List Nat) (rows : List Row) :
    WF (buildGraph nullStr k1 k2 rows) k1.length k2.length := by
  unfold buildGraph
  have hgen : ∀ (rs : List Row) (g : BGraph), WF g k1.length k2.length →
      WF (rs.foldl (fun g row =>
        bgAdd g (tbMakeKey nullStr row k1 .A) (tbMakeKey nullStr row k2 .B)) g)
        k1.length k2.length := by
    intro rs
    induction rs with
    | nil => intro g h; exact h
    | cons r rs ih =>
        intro g h
        rw [List.foldl_cons]
        refine ih _ (WF_bgAdd g _ _ _ _ h ?_ ?_)
        · intro nd hnd
          exact tbMakeKey_shape nullStr r k1 Side.A nd hnd
        · intro nd hnd
          exact tbMakeKey_shape nullStr r k2 Side.B nd hnd
  refine hgen rows [] ⟨List.nodup_nil, ?_, ?_, ?_, ?_⟩
  · intro x y hy
    simp [adj, List.find?] at hy
  · intro x y hy
    simp [adj, List.find?] at hy
  · intro x y hy
    simp [adj, List.find?] at hy
  · intro x hx
    cases hx

lemma ReachAvoid.mono {g : BGraph} {V V' : List Node} {n x : Node}
    (h : ReachAvoid g V' n x) (hsub : ∀ z ∈ V, z ∈ V') : ReachAvoid g V n x := by
  induction h with
  | refl => exact .refl _
  | tail hab hc hcV ih => exact .tail ih hc (fun hm => hcV (hsub _ hm))

lemma ReachAvoid.trans {g : BGraph} {V : List Node} {a b c : Node}
    (h1 : ReachAvoid g V a b) (h2 : ReachAvoid g V b c) : ReachAvoid g V a c := by
  induction h2 with
  | refl => exact h1
  | tail hbc hc hcV ih => exact .tail ih hc hcV

lemma ReachAvoid.mem_keys {g : BGraph} {V : List Node} {n x : Node}
    (hW2 : ∀ x y : Node, y ∈ adj g x → y ∈ g.map Prod.fst)
    (hn : n ∈ g.map Prod.fst) (h : ReachAvoid g V n x) : x ∈ g.map Prod.fst := by
  induction h with
  | refl => exact hn
  | tail hab hc hcV ih => exact hW2 _ _ hc

lemma ReachAvoid.not_mem_avoid {g : BGraph} {V : List Node} {n x : Node}
    (hn : n ∉ V) (h : ReachAvoid g V n x) : x ∉ V := by
  induction h with
  | refl => exact hn
  | tail hab hc hcV ih => exact hcV

/-- Decomposing one DFS step: the nodes reachable from `n` avoiding `V`
are `n` itself plus the nodes reachable, avoiding `V ++ [n]`, from some
unvisited neighbour of `n`. -/
lemma ReachAvoid.step_decomp (g : BGraph) (V : List Node) (n x : Node) :
    ReachAvoid g V n x ↔
      (x = n ∨ ∃ c ∈ adj g n, c ∉ V ++ [n] ∧ ReachAvoid g (V ++ [n]) c x) := by
  constructor
  · intro h
    induction h with
    | refl => exact Or.inl rfl
    | @tail b y hab hc hcV ih =>
        by_cases hyn : y = n
        · exact Or.inl hyn
        · have hyV1 : y ∉ V ++ [n] := by
            rw [List.mem_append, List.mem_singleton]
            rintro (hm | hm)
            · exact hcV hm
            · exact hyn hm
          rcases ih with rfl | ⟨c0, hc0adj, hc0V1, hrac⟩
          · exact Or.inr ⟨y, hc, hyV1, .refl y⟩
          · exact Or.inr ⟨c0, hc0adj, hc0V1, .tail hrac hc hyV1⟩
  · rintro (rfl | ⟨c, hcadj, hcV1, hrac⟩)
    · exact .refl x
    · have h1 : ReachAvoid g V n c :=
        .tail (.refl n) hcadj (fun hm => hcV1 (List.mem_append.mpr (Or.inl hm)))
      exact h1.trans (hrac.mono (fun z hz => List.mem_append.mpr (Or.inl hz)))

/-- Lifting reachability across a finished sub-DFS: a node reachable
from `n` avoiding `V` is either inside the finished component `Δ1`
(whose members are exactly the `RA V n2`-reachable nodes), or reachable
from `n` avoiding `V ++ Δ1` as well. -/
lemma ReachAvoid.lift (g : BGraph) (V Δ1 : List Node) (n2 : Node)
    (hΔ1 : ∀ z, z ∈ Δ1 ↔ ReachAvoid g V n2 z) (n y : Node)
    (h : ReachAvoid g V n y) : y ∈ Δ1 ∨ ReachAvoid g (V ++ Δ1) n y := by
  induction h with
  | refl => exact Or.inr (.refl _)
  | @tail b c hab hc hcV ih =>
      rcases ih with hb | hb
      · exact Or.inl ((hΔ1 _).mpr (.tail ((hΔ1 _).mp hb) hc hcV))
      · by_cases hcΔ : c ∈ Δ1
        · exact Or.inl hcΔ
        · refine Or.inr (.tail hb hc ?_)
          rw [List.mem_append]
          rintro (hm | hm)
          · exact hcV hm
          · exact hcΔ hm

lemma countP_unvis_pos (keys : List Node) (V : List Node) (n : Node)
    (hmem : n ∈ keys) (hnV : n ∉ V) :
    0 < keys.countP (fun x => !decide (x ∈ V)) := by
  rw [List.countP_pos_iff]
  exact ⟨n, hmem, by simp [hnV]⟩

lemma countP_unvis_mark (keys : List Node) (V : List Node) (n : Node)
    (hmem : n ∈ keys) (hnV : n ∉ V) :
    keys.countP (fun x => !decide (x ∈ V ++ [n])) + 1
      ≤ keys.countP (fun x => !decide (x ∈ V)) := by
  induction keys with
  | nil => cases hmem
  | cons k ks ih =>
      rw [List.countP_cons, List.countP_cons]
      by_cases hkn : k = n
      · subst hkn
        have h1 : (!decide (k ∈ V ++ [k])) = false := by simp
        have h2 : (!decide (k ∈ V)) = true := by simp [hnV]
        rw [h1, h2]
        have hmono : ks.countP (fun x => !decide (x ∈ V ++ [k]))
            ≤ ks.countP (fun x => !decide (x ∈ V)) := by
          apply List.countP_mono_left
          intro x _ hx
          simp only [Bool.not_eq_true', decide_eq_false_iff_not] at hx ⊢
          intro hm
          exact hx (List.mem_append.mpr (Or.inl hm))
        simp only [Bool.false_eq_true, if_false, if_true]
        omega
      · have hmem' : n ∈ ks := by
          rcases List.mem_cons.mp hmem with h | h
          · exact absurd h.symm hkn
          · exact h
        have hih := ih hmem'
        have hk : (!decide (k ∈ V ++ [n])) = true → (!decide (k ∈ V)) = true := by
          simp only [Bool.not_eq_true', decide_eq_false_iff_not]
          intro hx hm
          exact hx (List.mem_append.mpr (Or.inl hm))
        by_cases hkV1 : (!decide (k ∈ V ++ [n])) = true
        · rw [hkV1, hk hkV1]
          simp only [if_true]
          omega
        · rw [Bool.eq_false_iff.mpr hkV1]
          have halt : (!decide (k ∈ V)) = true ∨ (!decide (k ∈ V)) = false := by
            cases (!decide (k ∈ V)) <;> simp
          rcases halt with h | h <;> rw [h] <;>
            simp only [Bool.false_eq_true, if_false, if_true] <;> omega

lemma countP_unvis_anti (keys : List Node) (V Δ : List Node) :
    keys.countP (fun x => !decide (x ∈ V ++ Δ))
      ≤ keys.countP (fun x => !decide (x ∈ V)) := by
  apply List.countP_mono_left
  intro x _ hx
  simp only [Bool.not_eq_true', decide_eq_false_iff_not] at hx ⊢
  intro hm
  exact hx (List.mem_append.mpr (Or.inl hm))

lemma DfsPost_refl (st : DfsState) : DfsPost st st [] := by
  refine ⟨by simp, by simp, List.nodup_nil, ?_, by simp, by simp⟩
  intro x hx
  cases hx

lemma DfsPost_trans {st1 st2 st3 : DfsState} {Δ1 Δ2 : List Node}
    (h1 : DfsPost st1 st2 Δ1) (h2 : DfsPost st2 st3 Δ2) :
    DfsPost st1 st3 (Δ1 ++ Δ2) := by
  obtain ⟨hv1, hc1, hn1, hf1, ha1, hb1⟩ := h1
  obtain ⟨hv2, hc2, hn2, hf2, ha2, hb2⟩ := h2
  refine ⟨?_, ?_, ?_, ?_, ?_, ?_⟩
  · rw [hv2, hv1, List.append_assoc]
  · rw [hc2, hc1, List.append_assoc]
  · rw [List.nodup_append]
    refine ⟨hn1, hn2, ?_⟩
    intro x hx1 hx2
    exact hf2 x hx2 (by rw [hv1]; exact List.mem_append.mpr (Or.inr hx1))
  · intro x hx
    rcases List.mem_append.mp hx with hx | hx
    · exact hf1 x hx
    · intro hm
      exact hf2 x hx (by rw [hv1]; exact List.mem_append.mpr (Or.inl hm))
  · rw [ha2, ha1, List.filter_append, List.length_append]
    omega
  · rw [hb2, hb1, List.filter_append, List.length_append]
    omega

/-- Counter contribution of a single marked node. -/
lemma filter_singleton_count (s : Side) (n : Node) :
    (List.filter (fun x : Node => decide (x.1 = s) && decide (x.2 ≠ [])) [n]).length
      = (if n.1 = s ∧ n.2 ≠ [] then 1 else 0) := by
  by_cases hA : n.1 = s ∧ n.2 ≠ []
  · have ht : (decide (n.1 = s) && decide (n.2 ≠ [])) = true := by
      simp [hA.1, hA.2]
    rw [if_pos hA]
    simp only [List.filter_cons, List.filter_nil]
    rw [ht]
    simp
  · have hf : (decide (n.1 = s) && decide (n.2 ≠ [])) = false := by
      rw [not_and_or] at hA
      rcases hA with h | h <;> simp [h]
    rw [if_neg hA]
    simp only [List.filter_cons, List.filter_nil]
    rw [hf]
    simp

/-- Correctness of the fueled DFS: with fuel bounding the number of
unvisited nodes, one `reach` call appends to the visited set and the
component exactly the nodes reachable from its start avoiding the
already-visited set, with matching member counters; `reachList` does so
for a whole neighbour list. -/
lemma dfs_spec (g : BGraph)
    (hW2 : ∀ x y : Node, y ∈ adj g x → y ∈ g.map Prod.fst) :
    ∀ fuel : Nat,
      (∀ (st : DfsState) (n : Node), n ∈ g.map Prod.fst → n ∉ st.visitedK →
        (g.map Prod.fst).countP (fun x => !decide (x ∈ st.visitedK)) ≤ fuel →
        ∃ Δ, DfsPost st (reach g fuel n st) Δ
          ∧ (∀ x, x ∈ Δ ↔ ReachAvoid g st.visitedK n x))
      ∧ (∀ (st : DfsState) (ns : List Node), (∀ x ∈ ns, x ∈ g.map Prod.fst) →
        (g.map Prod.fst).countP (fun x => !decide (x ∈ st.visitedK)) ≤ fuel →
        ∃ Δ, DfsPost st (reachList g fuel ns st) Δ
          ∧ (∀ x, x ∈ Δ ↔ ∃ n ∈ ns, n ∉ st.visitedK ∧ ReachAvoid g st.visitedK n x)) := by
  intro fuel
  induction fuel with
  | zero =>
      constructor
      · intro st n hmem hnV hcnt
        have := countP_unvis_pos (g.map Prod.fst) st.visitedK n hmem hnV
        omega
      · intro st ns hns hcnt
        induction ns with
        | nil =>
            have hstep : reachList g 0 [] st = st := by
              rw [reachList]
            exact ⟨[], by rw [hstep]; exact DfsPost_refl st, by simp⟩
        | cons n2 rest ihns =>
            have hv : n2 ∈ st.visitedK := by
              by_contra hv
              have := countP_unvis_pos (g.map Prod.fst) st.visitedK n2
                (hns n2 (List.mem_cons_self _ _)) hv
              omega
            have hstep : reachList g 0 (n2 :: rest) st = reachList g 0 rest st := by
              conv_lhs => rw [reachList]
              rw [if_pos hv]
            obtain ⟨Δ, hp, hiff⟩ := ihns (fun x hx => hns x (List.mem_cons_of_mem _ hx))
            refine ⟨Δ, by rw [hstep]; exact hp, ?_⟩
            intro x
            rw [hiff x]
            constructor
            · rintro ⟨n, hn, hnv, hra⟩
              exact ⟨n, List.mem_cons_of_mem _ hn, hnv, hra⟩
            · rintro ⟨n, hn, hnv, hra⟩
              rcases List.mem_cons.mp hn with rfl | hn
              · exact absurd hv hnv
              · exact ⟨n, hn, hnv, hra⟩
  | succ f ihf =>
      obtain ⟨ihP, ihQ⟩ := ihf
      have hP : ∀ (st : DfsState) (n : Node), n ∈ g.map Prod.fst → n ∉ st.visitedK →
          (g.map Prod.fst).countP (fun x => !decide (x ∈ st.visitedK)) ≤ f + 1 →
          ∃ Δ, DfsPost st (reach g (f + 1) n st) Δ
            ∧ (∀ x, x ∈ Δ ↔ ReachAvoid g st.visitedK n x) := by
        intro st n hmem hnV hcnt
        have hcnt1 : (g.map Prod.fst).countP
            (fun x => !decide (x ∈ st.visitedK ++ [n])) ≤ f := by
          have := countP_unvis_mark (g.map Prod.fst) st.visitedK n hmem hnV
          omega
        obtain ⟨Δ2, hp2, hiff2⟩ := ihQ
          { visitedK := st.visitedK ++ [n]
            cc := st.cc ++ [n]
            na := st.na + (if n.1 = Side.A ∧ n.2 ≠ [] then 1 else 0)
            nb := st.nb + (if n.1 = Side.B ∧ n.2 ≠ [] then 1 else 0) }
          (adj g n) (fun x hx => hW2 n x hx) hcnt1
        have hfa := filter_singleton_count Side.A n
        have hfb := filter_singleton_count Side.B n
        have hp1 : DfsPost st
            { visitedK := st.visitedK ++ [n]
              cc := st.cc ++ [n]
              na := st.na + (if n.1 = Side.A ∧ n.2 ≠ [] then 1 else 0)
              nb := st.nb + (if n.1 = Side.B ∧ n.2 ≠ [] then 1 else 0) } [n] := by
          refine ⟨rfl, rfl, List.nodup_singleton n, ?_, ?_, ?_⟩
          · intro x hx
            rw [List.mem_singleton.mp hx]
            exact hnV
          · rw [hfa]
          · rw [hfb]
        have hpost := DfsPost_trans hp1 hp2
        have hstep : reach g (f + 1) n st = reachList g f (adj g n)
            { visitedK := st.visitedK ++ [n]
              cc := st.cc ++ [n]
              na := st.na + (if n.1 = Side.A ∧ n.2 ≠ [] then 1 else 0)
              nb := st.nb + (if n.1 = Side.B ∧ n.2 ≠ [] then 1 else 0) } := by
          rw [reach]
        refine ⟨[n] ++ Δ2, by rw [hstep]; exact hpost, ?_⟩
        intro x
        rw [ReachAvoid.step_decomp g st.visitedK n x, List.mem_append, List.mem_singleton,
          hiff2 x]
      refine ⟨hP, ?_⟩
      have hQ : ∀ (ns : List Node) (st : DfsState), (∀ x ∈ ns, x ∈ g.map Prod.fst) →
          (g.map Prod.fst).countP (fun x => !decide (x ∈ st.visitedK)) ≤ f + 1 →
          ∃ Δ, DfsPost st (reachList g (f + 1) ns st) Δ
            ∧ (∀ x, x ∈ Δ ↔ ∃ n ∈ ns, n ∉ st.visitedK ∧ ReachAvoid g st.visitedK n x) := by
        intro ns
        induction ns with
        | nil =>
            intro st _ _
            have hstep : reachList g (f + 1) [] st = st := by
              rw [reachList]
            exact ⟨[], by rw [hstep]; exact DfsPost_refl st, by simp⟩
        | cons n2 rest ihns =>
            intro st hns hcnt
            by_cases hv : n2 ∈ st.visitedK
            · have hstep : reachList g (f + 1) (n2 :: rest) st
                  = reachList g (f + 1) rest st := by
                conv_lhs => rw [reachList]
                rw [if_pos hv]
              obtain ⟨Δ, hp, hiff⟩ := ihns st
                (fun x hx => hns x (List.mem_cons_of_mem _ hx)) hcnt
              refine ⟨Δ, by rw [hstep]; exact hp, ?_⟩
              intro x
              rw [hiff x]
              constructor
              · rintro ⟨n, hn, hnv, hra⟩
                exact ⟨n, List.mem_cons_of_mem _ hn, hnv, hra⟩
              · rintro ⟨n, hn, hnv, hra⟩
                rcases List.mem_cons.mp hn with rfl | hn
                · exact absurd hv hnv
                · exact ⟨n, hn, hnv, hra⟩
            · obtain ⟨Δ1, hp1, hiff1⟩ := hP st n2
                (hns n2 (List.mem_cons_self _ _)) hv hcnt
              have hcnt2 : (g.map Prod.fst).countP
                  (fun x => !decide (x ∈ (reach g (f + 1) n2 st).visitedK)) ≤ f + 1 := by
                rw [hp1.1]
                exact le_trans (countP_unvis_anti (g.map Prod.fst) st.visitedK Δ1) hcnt
              obtain ⟨Δ2, hp2, hiff2⟩ := ihns (reach g (f + 1) n2 st)
                (fun x hx => hns x (List.mem_cons_of_mem _ hx)) hcnt2
              have hstep : reachList g (f + 1) (n2 :: rest) st
                  = reachList g (f + 1) rest (reach g (f + 1) n2 st) := by
                conv_lhs => rw [reachList]
                rw [if_neg hv]
              refine ⟨Δ1 ++ Δ2, by rw [hstep]; exact DfsPost_trans hp1 hp2, ?_⟩
              intro x
              have hv1eq : (reach g (f + 1) n2 st).visitedK = st.visitedK ++ Δ1 := hp1.1
              rw [List.mem_append, hiff1 x, hiff2 x, hv1eq]
              constructor
              · rintro (hra | ⟨n, hn, hnV1, hra⟩)
                · exact ⟨n2, List.mem_cons_self _ _, hv, hra⟩
                · refine ⟨n, List.mem_cons_of_mem _ hn, ?_,
                    hra.mono (fun z hz => List.mem_append.mpr (Or.inl hz))⟩
                  intro hm
                  exact hnV1 (List.mem_append.mpr (Or.inl hm))
              · rintro ⟨n, hn, hnV, hra⟩
                rcases List.mem_cons.mp hn with rfl | hn
                · exact Or.inl hra
                · by_cases hnV1 : n ∈ st.visitedK ++ Δ1
                  · have hnΔ1 : n ∈ Δ1 := by
                      rcases List.mem_append.mp hnV1 with h | h
                      · exact absurd h hnV
                      · exact h
                    exact Or.inl (((hiff1 n).mp hnΔ1).trans hra)
                  · rcases ReachAvoid.lift g st.visitedK Δ1 n2
                      (fun z => hiff1 z) n x hra with h | h
                    · exact Or.inl ((hiff1 x).mp h)
                    · exact Or.inr ⟨n, hn, hnV1, h⟩
      exact fun st ns hns hc => hQ ns st hns hc

lemma mem_insertAsc {α : Type} (lt : α → α → Bool) (x a : α) :
    ∀ l : List α, a ∈ insertAsc lt x l ↔ a = x ∨ a ∈ l := by
  intro l
  induction l with
  | nil => simp [insertAsc]
  | cons y ys ih =>
      unfold insertAsc
      by_cases hlt : lt x y = true
      · rw [if_pos hlt]
        simp
      · rw [if_neg hlt]
        simp only [List.mem_cons, ih]
        tauto

lemma mem_sortAsc {α : Type} (lt : α → α → Bool) (l : List α) (a : α) :
    a ∈ sortAsc lt l ↔ a ∈ l := by
  unfold sortAsc
  have hgen : ∀ (l acc : List α),
      (a ∈ l.foldl (fun acc x => insertAsc lt x acc) acc ↔ a ∈ acc ∨ a ∈ l) := by
    intro l
    induction l with
    | nil => intro acc; simp
    | cons x xs ih =>
        intro acc
        rw [List.foldl_cons, ih, mem_insertAsc]
        simp only [List.mem_cons]
        tauto
  rw [hgen l []]
  simp

lemma lookupAssign_of_mem {asg : List (Node × Nat × String)}
    (hnd : (asg.map Prod.fst).Nodup) {e : Node × Nat × String} (he : e ∈ asg) :
    lookupAssign asg e.1 = some e.2 := by
  induction asg with
  | nil => cases he
  | cons a rest ih =>
      rw [List.map_cons, List.nodup_cons] at hnd
      rcases List.mem_cons.mp he with rfl | he'
      · unfold lookupAssign
        rw [List.find?_cons_of_pos _ (by simp)]
        rfl
      · have ha : ¬ (a.1 = e.1) := by
          intro hc
          exact hnd.1 (hc ▸ List.mem_map_of_mem Prod.fst he')
        unfold lookupAssign
        rw [List.find?_cons_of_neg _ (by simpa using ha)]
        exact ih hnd.2 he'

/-- Avoiding an adjacency-closed set of already-finished components does
not restrict reachability from a fresh start node (the graph being
symmetric). -/
lemma RA_closed_eq (g : BGraph)
    (hsym : ∀ x y : Node, y ∈ adj g x → x ∈ adj g y)
    (V : List Node) (hclosed : ∀ x ∈ V, ∀ y ∈ adj g x, y ∈ V)
    (n : Node) (hnV : n ∉ V) (x : Node) :
    ReachAvoid g V n x ↔ ReachAvoid g [] n x := by
  constructor
  · intro h
    exact h.mono (fun z hz => absurd hz (List.not_mem_nil z))
  · intro h
    induction h with
    | refl => exact .refl _
    | @tail b c hab hc hcV ih =>
        refine .tail ih hc ?_
        intro hcV'
        exact (ReachAvoid.not_mem_avoid hnV ih) (hclosed c hcV' b (hsym b c hc))

lemma RA_symm (g : BGraph)
    (hsym : ∀ x y : Node, y ∈ adj g x → x ∈ adj g y)
    {a b : Node} (h : ReachAvoid g [] a b) : ReachAvoid g [] b a := by
  induction h with
  | refl => exact .refl _
  | @tail b' c hab hc hcV ih =>
      exact ReachAvoid.trans
        (.tail (.refl c) (hsym b' c hc) (fun hz => absurd hz (List.not_mem_nil b')))
        ih

lemma digitChar_ne_dash (m : Nat) (h : m < 10) : Nat.digitChar m ≠ '-' := by
  interval_cases m <;> decide

lemma dash_not_mem_decDigits (n : Nat) : '-' ∉ decDigits n := by
  induction n using Nat.strong_induction_on with
  | _ n ih =>
      intro hc
      rw [decDigits] at hc
      by_cases h : n < 10
      · rw [dif_pos h] at hc
        exact digitChar_ne_dash n h (List.mem_singleton.mp hc).symm
      · rw [dif_neg h] at hc
        rcases List.mem_append.mp hc with hc | hc
        · exact ih (n / 10) (Nat.div_lt_self (by omega) (by omega)) hc
        · exact digitChar_ne_dash (n % 10) (Nat.mod_lt _ (by omega))
            (List.mem_singleton.mp hc).symm

lemma decDigits_ne_nil (n : Nat) : decDigits n ≠ [] := by
  rw [decDigits]
  by_cases h : n < 10
  · rw [dif_pos h]
    simp
  · rw [dif_neg h]
    simp

lemma decDigits_zero : decDigits 0 = ['0'] := by
  rw [decDigits]
  rfl

lemma decDigits_one : decDigits 1 = ['1'] := by
  rw [decDigits]
  rfl

lemma decDigits_small_inj (n : Nat) (c : Char) (h : decDigits n = [c]) :
    n < 10 ∧ Nat.digitChar n = c := by
  by_cases h10 : n < 10
  · refine ⟨h10, ?_⟩
    rw [decDigits, dif_pos h10] at h
    simpa using h
  · exfalso
    rw [decDigits, dif_neg h10] at h
    have hlen := congrArg List.length h
    rw [List.length_append] at hlen
    simp only [List.length_singleton, List.length_cons, List.length_nil] at hlen
    have : (decDigits (n / 10)).length = 0 := by omega
    exact decDigits_ne_nil (n / 10) (List.length_eq_zero.mp this)

lemma decDigits_zero_iff (n : Nat) : decDigits n = ['0'] ↔ n = 0 := by
  constructor
  · intro h
    obtain ⟨h10, hd⟩ := decDigits_small_inj n '0' h
    interval_cases n <;> revert hd <;> decide
  · intro h
    subst h
    exact decDigits_zero

lemma decDigits_one_iff (n : Nat) : decDigits n = ['1'] ↔ n = 1 := by
  constructor
  · intro h
    obtain ⟨h10, hd⟩ := decDigits_small_inj n '1' h
    interval_cases n <;> revert hd <;> decide
  · intro h
    subst h
    exact decDigits_one

lemma splitSep_no_sep (sep : Char) : ∀ l : List Char, sep ∉ l → splitSep sep l = [l] := by
  intro l
  induction l with
  | nil => intro _; rfl
  | cons c rest ih =>
      intro h
      have hc : ¬ (c = sep) := by
        intro hce
        subst hce
        exact h (List.mem_cons_self c rest)
      have hrest : sep ∉ rest := fun hm => h (List.mem_cons_of_mem _ hm)
      rw [splitSep, ih hrest]
      dsimp only
      rw [if_neg hc]

lemma splitSep_pair (sep : Char) (l1 l2 : List Char)
    (h1 : sep ∉ l1) (h2 : sep ∉ l2) :
    splitSep sep (l1 ++ sep :: l2) = [l1, l2] := by
  induction l1 with
  | nil =>
      rw [List.nil_append, splitSep, splitSep_no_sep sep l2 h2]
      dsimp only
      rw [if_pos rfl]
  | cons c cs ih =>
      have hc : ¬ (c = sep) := by
        intro hce
        subst hce
        exact h1 (List.mem_cons_self c cs)
      have hcs : sep ∉ cs := fun hm => h1 (List.mem_cons_of_mem _ hm)
      rw [List.cons_append, splitSep, ih hcs]
      dsimp only
      rw [if_neg hc]

/-- `getBid` of a raw `na-nb` bucket string computes exactly the
coarsening described by the claim (`bidSpec`). -/
lemma getBid_getBucket (na nb : Nat) : getBid (getBucket na nb) = bidSpec na nb := by
  have hsplit : splitSep '-' ((getBucket na nb).data) = [decDigits na, decDigits nb] := by
    have hdata : (getBucket na nb).data = decDigits na ++ '-' :: decDigits nb := rfl
    rw [hdata]
    exact splitSep_pair '-' _ _ (dash_not_mem_decDigits na) (dash_not_mem_decDigits nb)
  have hc0 : (if decDigits na = ['0'] ∨ decDigits na = ['1'] then decDigits na else ['n'])
      = (if na ≤ 1 then decDigits na else ['n']) := by
    by_cases h : na ≤ 1
    · rw [if_pos h, if_pos]
      interval_cases na
      · exact Or.inl decDigits_zero
      · exact Or.inr decDigits_one
    · rw [if_neg h, if_neg]
      intro hcon
      rcases hcon with hcon | hcon
      · exact h (by have := (decDigits_zero_iff na).mp hcon; omega)
      · exact h (by have := (decDigits_one_iff na).mp hcon; omega)
  have hc0n : ∀ h : na ≤ 1, ¬ ((if na ≤ 1 then decDigits na else ['n']) = ['n']) := by
    intro h
    rw [if_pos h]
    interval_cases na
    · rw [decDigits_zero]
      decide
    · rw [decDigits_one]
      decide
  have hc1 : (if decDigits nb = ['0'] ∨ decDigits nb = ['1'] then decDigits nb
        else if (if na ≤ 1 then decDigits na else ['n']) = ['n'] then ['m'] else ['n'])
      = (if nb ≤ 1 then decDigits nb else if na ≤ 1 then ['n'] else ['m']) := by
    by_cases hb : nb ≤ 1
    · rw [if_pos hb, if_pos]
      interval_cases nb
      · exact Or.inl decDigits_zero
      · exact Or.inr decDigits_one
    · rw [if_neg hb, if_neg]
      · by_cases ha : na ≤ 1
        · rw [if_neg (hc0n ha), if_pos ha]
        · rw [if_pos (by rw [if_neg ha]), if_neg ha]
      · intro hcon
        rcases hcon with hcon | hcon
        · exact hb (by have := (decDigits_zero_iff nb).mp hcon; omega)
        · exact hb (by have := (decDigits_one_iff nb).mp hcon; omega)
  show getBid (getBucket na nb) = bidSpec na nb
  unfold getBid bidSpec
  rw [hsplit]
  simp only [List.getD_cons_zero, List.getD_cons_succ]
  rw [hc0, hc1]

/-- The coarsened bucket id lands in `BUCKETS` whenever the component is
not degenerate (a lone untagged node would give `0-0`, which the claim's
hypotheses rule out). -/
lemma bidSpec_mem_BUCKETS (na nb : Nat)
    (h0 : na = 0 → nb = 1) (h1 : nb = 0 → na = 1) :
    bidSpec na nb ∈ BUCKETS := by
  unfold bidSpec BUCKETS
  rcases Nat.lt_or_ge na 2 with ha | ha
  · rcases Nat.lt_or_ge nb 2 with hb | hb
    · interval_cases na <;> interval_cases nb
      · exact absurd (h0 rfl) (by decide)
      · rw [if_pos (by omega), if_pos (by omega), decDigits_zero, decDigits_one]
        simp [String.mk]
      · rw [if_pos (by omega), if_pos (by omega), decDigits_one, decDigits_zero]
        simp [String.mk]
      · rw [if_pos (by omega), if_pos (by omega), decDigits_one]
        simp [String.mk]
    · have hna : na = 1 := by
        rcases Nat.lt_or_ge na 1 with h | h
        · exact absurd (h0 (by omega)) (by omega)
        · omega
      subst hna
      rw [if_pos (by omega), if_neg (by omega), if_pos (by omega), decDigits_one]
      simp [String.mk]
  · rcases Nat.lt_or_ge nb 2 with hb | hb
    · have hnb : nb = 1 := by
        rcases Nat.lt_or_ge nb 1 with h | h
        · exact absurd (h1 (by omega)) (by omega)
        · omega
      subst hnb
      rw [if_neg (by omega), if_pos (by omega), decDigits_one]
      simp [String.mk]
    · rw [if_neg (by omega), if_neg (by omega), if_neg (by omega)]
      simp [String.mk]

/-- Two members of one component have the same reachable set. -/
lemma RA_class_eq (g : BGraph)
    (hsym : ∀ x y : Node, y ∈ adj g x → x ∈ adj g y)
    {n m : Node} (hm : ReachAvoid g [] n m) (x : Node) :
    ReachAvoid g [] m x ↔ ReachAvoid g [] n x := by
  constructor
  · intro h
    exact hm.trans h
  · intro h
    exact (RA_symm g hsym hm).trans h

lemma countA_add_countB (cc : List Node) (h : ∀ x ∈ cc, x.2 ≠ []) :
    ((cc.filter (fun x => decide (x.1 = Side.A) && decide (x.2 ≠ []))).length
      + (cc.filter (fun x => decide (x.1 = Side.B) && decide (x.2 ≠ []))).length)
    = cc.length := by
  induction cc with
  | nil => rfl
  | cons x xs ih =>
      have hx : x.2 ≠ [] := h x (List.mem_cons_self x xs)
      have hxs := ih (fun y hy => h y (List.mem_cons_of_mem x hy))
      rw [List.filter_cons, List.filter_cons]
      cases hs : x.1 with
      | A =>
          rw [if_pos (by simp [hs, hx]), if_neg (by simp [hs])]
          simp only [List.length_cons]
          omega
      | B =>
          rw [if_neg (by simp [hs]), if_pos (by simp [hs, hx])]
          simp only [List.length_cons]
          omega

lemma nodup_forall_eq (cc : List Node) (n : Node) (hnd : cc.Nodup)
    (h : ∀ m, m ∈ cc ↔ m = n) : cc = [n] := by
  cases cc with
  | nil => exact absurd ((h n).mpr rfl) (List.not_mem_nil n)
  | cons x xs =>
      have hx : x = n := (h x).mp (List.mem_cons_self x xs)
      subst hx
      cases xs with
      | nil => rfl
      | cons y ys =>
          have hy : y = x := (h y).mp (List.mem_cons_of_mem x (List.mem_cons_self y ys))
          have hnm := (List.nodup_cons.mp hnd).1
          exact absurd (by rw [hy]; exact List.mem_cons_self x ys : x ∈ y :: ys) hnm

lemma component_all_empty_adj_eq_start (g : BGraph) (n : Node)
    (hadj : ∀ m, ReachAvoid g [] n m → adj g m = []) :
    ∀ m, ReachAvoid g [] n m → m = n := by
  intro m hm
  induction hm with
  | refl => rfl
  | @tail b c hab hc hcV ih =>
      rw [hadj b hab] at hc
      cases hc

/-- In a well-formed association graph with non-empty key-column lists,
a component with no tagged A-member consists of exactly one tagged
B-member, and symmetrically: the degenerate bucket `0-0` never occurs
and `0-n` / `n-0` reduce to `0-1` / `1-0`. -/
lemma counts_nondegenerate (g : BGraph) (n1 n2 : Nat)
    (hWF : WF g n1 n2) (h1 : n1 ≠ 0) (h2 : n2 ≠ 0)
    (n : Node) (hn : n ∈ g.map Prod.fst)
    (cc : List Node) (hnd : cc.Nodup)
    (hm : ∀ m, m ∈ cc ↔ ReachAvoid g [] n m) :
    ((cc.filter (fun x => decide (x.1 = Side.A) && decide (x.2 ≠ []))).length = 0
        → (cc.filter (fun x => decide (x.1 = Side.B) && decide (x.2 ≠ []))).length = 1)
    ∧ ((cc.filter (fun x => decide (x.1 = Side.B) && decide (x.2 ≠ []))).length = 0
        → (cc.filter (fun x => decide (x.1 = Side.A) && decide (x.2 ≠ []))).length = 1) := by
  obtain ⟨hW1, hW2, hW3, hW4, hW5⟩ := hWF
  have hkeys : ∀ m ∈ cc, m ∈ g.map Prod.fst := by
    intro m hmc
    exact ReachAvoid.mem_keys hW2 hn ((hm m).mp hmc)
  have htag : ∀ m ∈ cc, m.2 ≠ [] := by
    intro m hmc
    rcases hW5 m (hkeys m hmc) with ⟨_, hlen⟩ | ⟨_, hlen⟩
    · intro hnil
      rw [hnil] at hlen
      exact h1 hlen.symm
    · intro hnil
      rw [hnil] at hlen
      exact h2 hlen.symm
  have hnc : n ∈ cc := (hm n).mpr (.refl n)
  constructor
  · intro hA0
    have hallB : ∀ m ∈ cc, m.1 = Side.B := by
      intro m hmc
      cases hs : m.1 with
      | B => rfl
      | A =>
          exfalso
          have hfil : m ∈ cc.filter
              (fun x => decide (x.1 = Side.A) && decide (x.2 ≠ [])) := by
            rw [List.mem_filter]
            exact ⟨hmc, by simp [hs, htag m hmc]⟩
          rw [List.length_eq_zero.mp hA0] at hfil
          exact List.not_mem_nil m hfil
    have hadj : ∀ m, ReachAvoid g [] n m → adj g m = [] := by
      intro m hm'
      by_contra hne
      obtain ⟨y, hy⟩ := List.exists_mem_of_ne_nil (adj g m) hne
      have hyc : y ∈ cc := (hm y).mpr (.tail hm' hy (List.not_mem_nil y))
      have hym : y.1 ≠ m.1 := hW4 m y hy
      rw [hallB m ((hm m).mpr hm'), hallB y hyc] at hym
      exact hym rfl
    have hsingle : cc = [n] := by
      refine nodup_forall_eq cc n hnd (fun m => ?_)
      rw [hm m]
      exact ⟨component_all_empty_adj_eq_start g n hadj m, fun he => by rw [he]; exact .refl n⟩
    rw [hsingle, List.filter_cons,
      if_pos (by simp [hallB n hnc, htag n hnc])]
    rfl
  · intro hB0
    have hallA : ∀ m ∈ cc, m.1 = Side.A := by
      intro m hmc
      cases hs : m.1 with
      | A => rfl
      | B =>
          exfalso
          have hfil : m ∈ cc.filter
              (fun x => decide (x.1 = Side.B) && decide (x.2 ≠ [])) := by
            rw [List.mem_filter]
            exact ⟨hmc, by simp [hs, htag m hmc]⟩
          rw [List.length_eq_zero.mp hB0] at hfil
          exact List.not_mem_nil m hfil
    have hadj : ∀ m, ReachAvoid g [] n m → adj g m = [] := by
      intro m hm'
      by_contra hne
      obtain ⟨y, hy⟩ := List.exists_mem_of_ne_nil (adj g m) hne
      have hyc : y ∈ cc := (hm y).mpr (.tail hm' hy (List.not_mem_nil y))
      have hym : y.1 ≠ m.1 := hW4 m y hy
      rw [hallA m ((hm m).mpr hm'), hallA y hyc] at hym
      exact hym rfl
    have hsingle : cc = [n] := by
      refine nodup_forall_eq cc n hnd (fun m => ?_)
      rw [hm m]
      exact ⟨component_all_empty_adj_eq_start g n hadj m, fun he => by rw [he]; exact .refl n⟩
    rw [hsingle, List.filter_cons,
      if_pos (by simp [hallA n hnc, htag n hnc])]
    rfl

/-- Invariant of the `CCA.go` loop: the assignment map grows by whole
components; each entry's bucket is the tagged member count of its own
component; all processed roots are assigned. -/
lemma ccaGoLoop_spec (g : BGraph)
    (hW2 : ∀ x y : Node, y ∈ adj g x → y ∈ g.map Prod.fst)
    (hsym : ∀ x y : Node, y ∈ adj g x → x ∈ adj g y) :
    ∀ (roots : List Node) (asg : List (Node × Nat × String)) (cid : Nat),
      (∀ x ∈ roots, x ∈ g.map Prod.fst) →
      (asg.map Prod.fst).Nodup →
      (∀ x ∈ asg.map Prod.fst, ∀ y ∈ adj g x, y ∈ asg.map Prod.fst) →
      (∀ e ∈ asg, ∃ cc : List Node, cc.Nodup
        ∧ (∀ m, m ∈ cc ↔ ReachAvoid g [] e.1 m)
        ∧ e.2.2 = getBucket
            ((cc.filter (fun x => decide (x.1 = Side.A) && decide (x.2 ≠ []))).length)
            ((cc.filter (fun x => decide (x.1 = Side.B) && decide (x.2 ≠ []))).length)) →
      ((∃ suffix, (ccaGoLoop g (g.length + 1) roots (asg, cid)).1 = asg ++ suffix)
        ∧ ((ccaGoLoop g (g.length + 1) roots (asg, cid)).1.map Prod.fst).Nodup
        ∧ (∀ x ∈ roots, x ∈ (ccaGoLoop g (g.length + 1) roots (asg, cid)).1.map Prod.fst)
        ∧ (∀ e ∈ (ccaGoLoop g (g.length + 1) roots (asg, cid)).1,
            ∃ cc : List Node, cc.Nodup
              ∧ (∀ m, m ∈ cc ↔ ReachAvoid g [] e.1 m)
              ∧ e.2.2 = getBucket
                  ((cc.filter (fun x => decide (x.1 = Side.A) && decide (x.2 ≠ []))).length)
                  ((cc.filter (fun x => decide (x.1 = Side.B) && decide (x.2 ≠ []))).length))) := by
  intro roots
  induction roots with
  | nil =>
      intro asg cid hroots hnd hclosed hentries
      have hstep : ccaGoLoop g (g.length + 1) [] (asg, cid) = (asg, cid) := by
        rw [ccaGoLoop]
      rw [hstep]
      exact ⟨⟨[], by simp⟩, hnd, by simp, hentries⟩
  | cons n rest ih =>
      intro asg cid hroots hnd hclosed hentries
      by_cases hn : n ∈ asg.map Prod.fst
      · have hstep : ccaGoLoop g (g.length + 1) (n :: rest) (asg, cid)
            = ccaGoLoop g (g.length + 1) rest (asg, cid) := by
          rw [ccaGoLoop]
          rw [if_pos hn]
        rw [hstep]
        obtain ⟨hsuf, hnd', hmem', hent'⟩ := ih asg cid
          (fun x hx => hroots x (List.mem_cons_of_mem _ hx)) hnd hclosed hentries
        refine ⟨hsuf, hnd', ?_, hent'⟩
        intro x hx
        rcases List.mem_cons.mp hx with rfl | hx
        · obtain ⟨suffix, hs⟩ := hsuf
          rw [hs, List.map_append]
          exact List.mem_append.mpr (Or.inl hn)
        · exact hmem' x hx
      · -- run one DFS over the fresh component
        have hnkeys : n ∈ g.map Prod.fst := hroots n (List.mem_cons_self _ _)
        have hcnt : (g.map Prod.fst).countP
            (fun x => !decide (x ∈ asg.map Prod.fst))
            ≤ g.length + 1 := by
          have h1 : (g.map Prod.fst).countP
              (fun x => !decide (x ∈ asg.map Prod.fst)) ≤ (g.map Prod.fst).length :=
            List.countP_le_length _
          have h2 : (g.map Prod.fst).length = g.length := List.length_map g Prod.fst
          omega
        obtain ⟨Δ, hpost, hiff⟩ := (dfs_spec g hW2 (g.length + 1)).1
          ⟨asg.map Prod.fst, [], 0, 0⟩ n hnkeys hn hcnt
        obtain ⟨hvK, hcc, hΔnd, hΔfresh, hna, hnb⟩ := hpost
        have hccΔ : (reach g (g.length + 1) n ⟨asg.map Prod.fst, [], 0, 0⟩).cc = Δ := by
          rw [hcc]
          rfl
        have hnaΔ : (reach g (g.length + 1) n ⟨asg.map Prod.fst, [], 0, 0⟩).na
            = (Δ.filter (fun x => decide (x.1 = Side.A) && decide (x.2 ≠ []))).length := by
          rw [hna]
          simp
        have hnbΔ : (reach g (g.length + 1) n ⟨asg.map Prod.fst, [], 0, 0⟩).nb
            = (Δ.filter (fun x => decide (x.1 = Side.B) && decide (x.2 ≠ []))).length := by
          rw [hnb]
          simp
        have hiff0 : ∀ x, x ∈ Δ ↔ ReachAvoid g [] n x := by
          intro x
          rw [hiff x]
          exact RA_closed_eq g hsym (asg.map Prod.fst) hclosed n hn x
        have hstep : ccaGoLoop g (g.length + 1) (n :: rest) (asg, cid)
            = ccaGoLoop g (g.length + 1) rest
              (asg ++ (reach g (g.length + 1) n ⟨asg.map Prod.fst, [], 0, 0⟩).cc.map
                (fun cn => (cn, (cid + 1,
                  getBucket (reach g (g.length + 1) n ⟨asg.map Prod.fst, [], 0, 0⟩).na
                    (reach g (g.length + 1) n ⟨asg.map Prod.fst, [], 0, 0⟩).nb))),
                cid + 1) := by
          rw [ccaGoLoop]
          rw [if_neg hn]
        set newE := (reach g (g.length + 1) n ⟨asg.map Prod.fst, [], 0, 0⟩).cc.map
          (fun cn => (cn, (cid + 1,
            getBucket (reach g (g.length + 1) n ⟨asg.map Prod.fst, [], 0, 0⟩).na
              (reach g (g.length + 1) n ⟨asg.map Prod.fst, [], 0, 0⟩).nb))) with hnewE
        have hkeysE : (asg ++ newE).map Prod.fst = asg.map Prod.fst ++ Δ := by
          rw [List.map_append, hnewE, hccΔ, List.map_map]
          congr 1
          exact List.map_id Δ
        have hnd2 : ((asg ++ newE).map Prod.fst).Nodup := by
          rw [hkeysE, List.nodup_append]
          exact ⟨hnd, hΔnd, fun x hx hx2 => hΔfresh x hx2 hx⟩
        have hclosed2 : ∀ x ∈ (asg ++ newE).map Prod.fst, ∀ y ∈ adj g x,
            y ∈ (asg ++ newE).map Prod.fst := by
          rw [hkeysE]
          intro x hx y hy
          rcases List.mem_append.mp hx with hx | hx
          · exact List.mem_append.mpr (Or.inl (hclosed x hx y hy))
          · by_cases hyV : y ∈ asg.map Prod.fst
            · exact List.mem_append.mpr (Or.inl hyV)
            · refine List.mem_append.mpr (Or.inr ?_)
              rw [hiff y]
              exact .tail ((hiff x).mp hx) hy hyV
        have hentries2 : ∀ e ∈ asg ++ newE, ∃ cc : List Node, cc.Nodup
            ∧ (∀ m, m ∈ cc ↔ ReachAvoid g [] e.1 m)
            ∧ e.2.2 = getBucket
                ((cc.filter (fun x => decide (x.1 = Side.A) && decide (x.2 ≠ []))).length)
                ((cc.filter (fun x => decide (x.1 = Side.B) && decide (x.2 ≠ []))).length) := by
          intro e he
          rcases List.mem_append.mp he with he | he
          · exact hentries e he
          · rw [hnewE, hccΔ] at he
            obtain ⟨cn, hcn, rfl⟩ := List.mem_map.mp he
            refine ⟨Δ, hΔnd, ?_, ?_⟩
            · intro m
              rw [hiff0 m]
              exact (RA_class_eq g hsym ((hiff0 cn).mp hcn) m).symm
            · rw [hnaΔ, hnbΔ]
        rw [hstep]
        obtain ⟨hsuf, hnd', hmem', hent'⟩ := ih (asg ++ newE) (cid + 1)
          (fun x hx => hroots x (List.mem_cons_of_mem _ hx)) hnd2 hclosed2 hentries2
        refine ⟨?_, hnd', ?_, hent'⟩
        · obtain ⟨suffix, hs⟩ := hsuf
          exact ⟨newE ++ suffix, by rw [hs, List.append_assoc]⟩
        · intro x hx
          rcases List.mem_cons.mp hx with rfl | hx
          · obtain ⟨suffix, hs⟩ := hsuf
            rw [hs, List.map_append]
            refine List.mem_append.mpr (Or.inl ?_)
            rw [hkeysE]
            refine List.mem_append.mpr (Or.inr ?_)
            rw [hiff0 x]
            exact .refl x
          · exact hmem' x hx

/-- C4: for every key node of the association graph built by
`TBucketize.buildGraph`, `CCA.go` assigns the bucket string `"na-nb"`
(`getBucket na nb`) where `na` and `nb` are the numbers of distinct
non-null A-side resp. B-side keys of that node's connected component
(the duplicate-free list `cc` of exactly the nodes reachable from it),
and `TBucketize.getBid` coarsens that pair as the claim states
(`bidSpec`: any count greater than one becomes `"n"`, or `"m"` on the
right when the left is already `"n"`), always yielding one of the six
labels in `BUCKETS`. -/
theorem tbucketize_bucket_assignment
    (nullStr : String) (k1 k2 : List Nat) (rows : List Row)
    (h1 : k1 ≠ []) (h2 : k2 ≠ [])
    (n : Node) (hn : n ∈ (buildGraph nullStr k1 k2 rows).map Prod.fst) :
    ∃ (cid : Nat) (cc : List Node),
      cc.Nodup
      ∧ (∀ m, m ∈ cc ↔ ReachAvoid (buildGraph nullStr k1 k2 rows) [] n m)
      ∧ lookupAssign (ccaGo (buildGraph nullStr k1 k2 rows)) n
          = some (cid, getBucket
              ((cc.filter (fun x => decide (x.1 = Side.A) && decide (x.2 ≠ []))).length)
              ((cc.filter (fun x => decide (x.1 = Side.B) && decide (x.2 ≠ []))).length))
      ∧ getBid (getBucket
              ((cc.filter (fun x => decide (x.1 = Side.A) && decide (x.2 ≠ []))).length)
              ((cc.filter (fun x => decide (x.1 = Side.B) && decide (x.2 ≠ []))).length))
          = bidSpec
              ((cc.filter (fun x => decide (x.1 = Side.A) && decide (x.2 ≠ []))).length)
              ((cc.filter (fun x => decide (x.1 = Side.B) && decide (x.2 ≠ []))).length)
      ∧ getBid (getBucket
              ((cc.filter (fun x => decide (x.1 = Side.A) && decide (x.2 ≠ []))).length)
              ((cc.filter (fun x => decide (x.1 = Side.B) && decide (x.2 ≠ []))).length))
          ∈ BUCKETS := by
  obtain ⟨hW1, hW2, hW3, hW4, hW5⟩ := buildGraph_WF nullStr k1 k2 rows
  obtain ⟨hsuf, hnd, hmem, hent⟩ :=
    ccaGoLoop_spec (buildGraph nullStr k1 k2 rows) hW2 hW3
      (sortAsc nodeLt ((buildGraph nullStr k1 k2 rows).map Prod.fst)) [] 0
      (fun x hx => (mem_sortAsc nodeLt _ x).mp hx)
      (by simp) (by simp) (by simp)
  have hroot := hmem n ((mem_sortAsc nodeLt _ n).mpr hn)
  obtain ⟨e, he, hefst⟩ := List.mem_map.mp hroot
  obtain ⟨cc, hccnd, hcciff, hbid⟩ := hent e he
  have hcciff' : ∀ m, m ∈ cc ↔ ReachAvoid (buildGraph nullStr k1 k2 rows) [] n m := by
    intro m
    rw [hcciff m, hefst]
  refine ⟨e.2.1, cc, hccnd, hcciff', ?_, getBid_getBucket _ _, ?_⟩
  · have hlook := lookupAssign_of_mem hnd he
    rw [hefst] at hlook
    rw [ccaGo, hlook, ← hbid]
  · rw [getBid_getBucket]
    have hcn := counts_nondegenerate (buildGraph nullStr k1 k2 rows)
      k1.length k2.length ⟨hW1, hW2, hW3, hW4, hW5⟩
      (fun hl => h1 (List.length_eq_zero.mp hl))
      (fun hl => h2 (List.length_eq_zero.mp hl))
      n hn cc hccnd hcciff'
    exact bidSpec_mem_BUCKETS _ _ hcn.1 hcn.2

theorem tbucketize_bucket_assignment_witness :
    (([1] : List Nat) ≠ []
      ∧ ([2] : List Nat) ≠ []
      ∧ ((Side.A, ["a"]) : Node)
          ∈ (buildGraph "" [1] [2] [["1", "a", "x"]]).map Prod.fst)
    ∧ (∃ (cid : Nat) (cc : List Node),
      cc.Nodup
      ∧ (∀ m, m ∈ cc ↔ ReachAvoid (buildGraph "" [1] [2] [["1", "a", "x"]]) []
          ((Side.A, ["a"]) : Node) m)
      ∧ lookupAssign (ccaGo (buildGraph "" [1] [2] [["1", "a", "x"]]))
          ((Side.A, ["a"]) : Node)
          = some (cid, getBucket
              ((cc.filter (fun x => decide (x.1 = Side.A) && decide (x.2 ≠ []))).length)
              ((cc.filter (fun x => decide (x.1 = Side.B) && decide (x.2 ≠ []))).length))
      ∧ getBid (getBucket
              ((cc.filter (fun x => decide (x.1 = Side.A) && decide (x.2 ≠ []))).length)
              ((cc.filter (fun x => decide (x.1 = Side.B) && decide (x.2 ≠ []))).length))
          = bidSpec
              ((cc.filter (fun x => decide (x.1 = Side.A) && decide (x.2 ≠ []))).length)
              ((cc.filter (fun x => decide (x.1 = Side.B) && decide (x.2 ≠ []))).length)
      ∧ getBid (getBucket
              ((cc.filter (fun x => decide (x.1 = Side.A) && decide (x.2 ≠ []))).length)
              ((cc.filter (fun x => decide (x.1 = Side.B) && decide (x.2 ≠ []))).length))
          ∈ BUCKETS) :=
  ⟨⟨by decide, by decide, by decide⟩,
    tbucketize_bucket_assignment "" [1] [2] [["1", "a", "x"]]
      (by decide) (by decide) ((Side.A, ["a"]) : Node) (by decide)⟩

end TableTools
